import Mathlib

/-!
Shallow embedding of the `maxi-nerdle-solver` repository (Rust) in Lean 4.

Strings are modelled as `List Char`, the Rust `BTreeSet<(usize, char)>`
fields of `Masks` as lists of pairs in ascending-index order (which is the
order in which every constructor in the source inserts, and hence the
iteration order of the `BTreeSet`), `HashMap<char, usize>` counters as
functions `Char → Nat`, checked `i32` arithmetic as `Int` with explicit
range checks, and num-rational's `Ratio<i32>` as a reduced pair of
unbounded integers whose checked operations range-check the same
intermediate values the crate's `checked_*` operations do.  The `f64`
entropy values of `mask.rs` are modelled as exact real numbers.
-/

namespace Nerdle

/-! ## mask.rs : Masks, parse_mask_results, score, matches_mask -/

/-- The three disjoint position/character classifications of `mask.rs`.
`correct`, `incorrect` (present-elsewhere) and `not_present` mirror the
`BTreeSet<(usize, char)>` fields; every constructor in the source inserts
pairs with strictly increasing indices, so the list order is the
`BTreeSet` iteration order. -/
structure Masks where
  correct : List (Nat × Char)
  incorrect : List (Nat × Char)
  not_present : List (Nat × Char)
deriving DecidableEq, Repr

/-- `Masks::default()`. -/
def emptyMasks : Masks := ⟨[], [], []⟩

/-- `normalize_power` from mask.rs: map the ASCII aliases to the glyphs. -/
def normalize_power (c : Char) : Char :=
  if c = 's' then '²' else if c = 'c' then '³' else c

/-- Mask characters recognized as "correct location". -/
def correctCodes : List Char := ['2', 'C', 'c', 'G', 'g']

/-- Mask characters recognized as "incorrect location" (present elsewhere). -/
def incorrectCodes : List Char := ['1', 'I', 'i', 'P', 'p']

/-- Mask characters recognized as "not present". -/
def notPresentCodes : List Char := ['0', 'N', 'n', 'B', 'b', 'R', 'r', ' ']

/-- The loop body of `parse_mask_results`: walk the zipped (mask char,
guess char) pairs with the running index, inserting into the accumulated
`Masks`; an unrecognized mask character aborts with `none`. -/
def parseMaskGo : List (Char × Char) → Nat → Masks → Option Masks
  | [], _, m => some m
  | (mc, gc) :: rest, idx, m =>
    if mc ∈ correctCodes then
      parseMaskGo rest (idx + 1) { m with correct := m.correct ++ [(idx, normalize_power gc)] }
    else if mc ∈ incorrectCodes then
      parseMaskGo rest (idx + 1) { m with incorrect := m.incorrect ++ [(idx, normalize_power gc)] }
    else if mc ∈ notPresentCodes then
      parseMaskGo rest (idx + 1) { m with not_present := m.not_present ++ [(idx, normalize_power gc)] }
    else none

/-- `parse_mask_results(guess, mask)` from mask.rs: reject a length
mismatch, then classify every mask character. -/
def parse_mask_results (guess mask : List Char) : Option Masks :=
  if mask.length ≠ guess.length then none
  else parseMaskGo (mask.zip guess) 0 emptyMasks

/-- Increment a character counter (`*map.entry(c).or_default() += 1`). -/
def bump (f : Char → Nat) (c : Char) : Char → Nat :=
  fun x => if x = c then f c + 1 else f x

/-- Decrement a character counter (`*ct -= 1`). -/
def debump (f : Char → Nat) (c : Char) : Char → Nat :=
  fun x => if x = c then f c - 1 else f x

/-- First pass of `score`: over zipped (guess char, truth char) pairs,
equal characters go to `correct`, other truth characters are counted. -/
def scorePass1 : List (Char × Char) → Nat → Masks → (Char → Nat) → Masks × (Char → Nat)
  | [], _, m, t => (m, t)
  | (g, tr) :: rest, idx, m, t =>
    if g = tr then
      scorePass1 rest (idx + 1) { m with correct := m.correct ++ [(idx, g)] } t
    else
      scorePass1 rest (idx + 1) m (bump t tr)

/-- Second pass of `score`: walk the guess characters; positions already
correct are skipped, otherwise consume an unconsumed truth occurrence
(`incorrect`) or record `not_present`. -/
def scorePass2 : List Char → Nat → Masks → (Char → Nat) → Masks
  | [], _, m, _ => m
  | g :: rest, idx, m, t =>
    if (idx, g) ∈ m.correct then
      scorePass2 rest (idx + 1) m t
    else if 0 < t g then
      scorePass2 rest (idx + 1) { m with incorrect := m.incorrect ++ [(idx, g)] } (debump t g)
    else
      scorePass2 rest (idx + 1) { m with not_present := m.not_present ++ [(idx, g)] } t

/-- `score(guess, truth)` from mask.rs: the first pass collects correct
positions and counts the remaining truth characters, the second pass
classifies every other guess position. -/
def score (guess truth : List Char) : Masks :=
  scorePass2 guess 0 (scorePass1 (guess.zip truth) 0 emptyMasks (fun _ => 0)).1
    (scorePass1 (guess.zip truth) 0 emptyMasks (fun _ => 0)).2

/-- The character counts built inside `matches_mask`: count every guess
character whose (index, char) pair is not claimed `correct`. -/
def countsOf (correct : List (Nat × Char)) : List (Nat × Char) → (Char → Nat)
  | [] => fun _ => 0
  | (idx, c) :: rest =>
    if (idx, c) ∈ correct then countsOf correct rest
    else bump (countsOf correct rest) c

/-- The `incorrect` consumption loop of `matches_mask`: each
present-elsewhere entry must consume one remaining occurrence. -/
def consumeIncorrect : List (Nat × Char) → (Char → Nat) → Option (Char → Nat)
  | [], t => some t
  | (_, c) :: rest, t =>
    if t c = 0 then none
    else consumeIncorrect rest (debump t c)

/-- `matches_mask(guess, mask)` from mask.rs. -/
def matches_mask (guess : List Char) (mask : Masks) : Bool :=
  let chars := guess.enum
  if mask.not_present.any (fun p => decide (p ∈ chars)) then false
  else if mask.incorrect.any (fun p => decide (p ∈ chars)) then false
  else if (mask.correct.filter (fun p => decide (p ∈ chars))).length < mask.correct.length then
    false
  else
    match consumeIncorrect mask.incorrect (countsOf mask.correct guess.enum) with
    | none => false
    | some t => mask.not_present.all (fun p => t p.2 = 0)

/-! ### Characterization lemmas for `score` and `matches_mask` -/

/-- The correct pairs the first pass of `score` produces, starting at `idx`. -/
def corrOf : List (Char × Char) → Nat → List (Nat × Char)
  | [], _ => []
  | (g, tr) :: rest, idx =>
    if g = tr then (idx, g) :: corrOf rest (idx + 1) else corrOf rest (idx + 1)

/-- How many mismatched pairs of the zipped guess/truth list have truth
character `c`; this is the counter map the first pass of `score` builds. -/
def mismCnt : List (Char × Char) → Char → Nat
  | [], _ => 0
  | (g, tr) :: rest, c => (if g = tr then 0 else if tr = c then 1 else 0) + mismCnt rest c

/-- Number of pairs in a mask-entry list whose character is `ch`. -/
def cnt : List (Nat × Char) → Char → Nat
  | [], _ => 0
  | (_, c) :: rest, ch => (if c = ch then 1 else 0) + cnt rest ch

/-! ## Solver definitions: corpus filtering, entropy, best guess -/

/-- The corpus-filtering step of bin/filter.rs's main loop:
`options.retain(|o| mask::matches_mask(o, &m))`. -/
def filterCorpus (corpus : List (List Char)) (m : Masks) : List (List Char) :=
  corpus.filter (fun o => matches_mask o m)

/-- One feedback round of bin/filter.rs: parse the mask text against the
guess; when parsing fails the options are left unchanged, otherwise only
the matching options are retained. -/
def sessionStep (options : List (List Char)) (guess mask : List Char) : List (List Char) :=
  match parse_mask_results guess mask with
  | none => options
  | some m => filterCorpus options m

/-- Insert one scored mask into the multiplicity table
(`*masks.entry(m).or_default() += 1`; the `HashMap` is modelled in
first-occurrence order, which is irrelevant to the commutative sum). -/
def bumpMask : List (Masks × Nat) → Masks → List (Masks × Nat)
  | [], m => [(m, 1)]
  | (m', c) :: rest, m =>
    if m' = m then (m', c + 1) :: rest else (m', c) :: bumpMask rest m

/-- The mask-multiplicity table `compute_entropy` builds by scoring `x`
against every corpus element. -/
def countMasks (x : List Char) (corpus : List (List Char)) : List (Masks × Nat) :=
  corpus.foldl (fun acc v => bumpMask acc (score x v)) []

/-- Number of corpus entries consistent with mask `m` (the `matching`
count inside `compute_entropy`). -/
def matchingCount (corpus : List (List Char)) (m : Masks) : Nat :=
  (corpus.filter (fun c => matches_mask c m)).length

/-- `compute_entropy(x, corpus)` from mask.rs, with the `f64` arithmetic
modelled exactly over `ℝ`: `t += ct as f64 * -(matching as f64).log2()`. -/
noncomputable def compute_entropy (x : List Char) (corpus : List (List Char)) : ℝ :=
  (countMasks x corpus).foldl
    (fun t p => t + (p.2 : ℝ) * (-Real.logb 2 ((matchingCount corpus p.1 : ℝ)))) 0

/-- One step of `max_by` with the comparator `a.1.total_cmp(&b.1)`: the
accumulator is kept only when strictly greater, so among equal maxima the
last element encountered wins (both `Iterator::max_by` and rayon's
`ParallelIterator::max_by` document this tie-break). -/
noncomputable def maxStep (acc : Option (List Char × ℝ)) (x : List Char × ℝ) :
    Option (List Char × ℝ) :=
  match acc with
  | none => some x
  | some a => if x.2 < a.2 then some a else some x

/-- `compute_best_guess(corpus)` from mask.rs; the `unwrap()` panic on an
empty corpus is modelled by `none`. -/
noncomputable def compute_best_guess (corpus : List (List Char)) :
    Option (List Char × ℝ) :=
  (corpus.map (fun w => (w, compute_entropy w corpus))).foldl maxStep none

/-- The corpus of the repository's `test_entropy` / `test_compute_best_guess`. -/
def corpus3 : List (List Char) := ["abc".data, "abd".data, "aba".data]

/-! ## eval.rs : the two-phase Nerdle expression evaluator

The nom parser combinators of eval.rs are embedded as a recursive-descent
parser over `List Char`.  `i32` is `Int` with an explicit
fits-in-32-bits check after every checked operation; `Rational32` is a
reduced `Ratio` of unbounded integers whose checked operations perform
the same `i32` overflow checks as num-rational's `checked_*`
implementations (in particular, `checked_add`/`checked_sub` check the
lcm, the scaled numerators and their sum before the result is reduced).
-/

/-- The `ComputeError` kinds of eval.rs. -/
inductive CompErr
  | computeError
  | nonIntegerDivision
  | nonIntegerResult
deriving DecidableEq

/-- The nom error shapes that `eval` distinguishes: a recoverable
`Err::Error`, or an `Err::Failure` of kind `Fail` or `Float`. -/
inductive NomErr
  | error
  | failureFail
  | failureFloat
deriving DecidableEq

/-- `make_err` from eval.rs: `ComputeError` maps to `Failure(Fail)`;
`NonIntegerDivision` and `NonIntegerResult` map to `Failure(Float)`. -/
def make_err : CompErr → NomErr
  | .computeError => .failureFail
  | .nonIntegerDivision => .failureFloat
  | .nonIntegerResult => .failureFloat

/-- The operations of the `Val` trait of eval.rs. -/
structure ValOps (V : Type) where
  add : V → V → Except CompErr V
  sub : V → V → Except CompErr V
  mul : V → V → Except CompErr V
  div : V → V → Except CompErr V
  pow : V → Nat → Except CompErr V
  fromInteger : Int → V

def i32Min : Int := -(2 ^ 31)

def i32Max : Int := 2 ^ 31 - 1

/-- A checked `i32` operation: the exact result when representable,
`ComputeError` otherwise. -/
def checkedI32 (x : Int) : Except CompErr Int :=
  if i32Min ≤ x ∧ x ≤ i32Max then .ok x else .error .computeError

/-- `impl Val for i32`.  `div` requires exact divisibility and signals the
distinguished `NonIntegerDivision` otherwise; division by zero is a
`ComputeError`.  (`checked_pow` is only invoked with exponents 2 and 3,
for which intermediate overflow coincides with overflow of the result.) -/
def intOps : ValOps Int where
  add a b := checkedI32 (a + b)
  sub a b := checkedI32 (a - b)
  mul a b := checkedI32 (a * b)
  div a b :=
    if b = 0 then .error .computeError
    else if a % b = 0 then checkedI32 (a / b)
    else .error .nonIntegerDivision
  pow a k := checkedI32 (a ^ k)
  fromInteger i := i

/-- num-rational's `Ratio<i32>`: an always-reduced fraction with a
positive denominator and the sign carried by the numerator; the
components are unbounded here, with the `i32` range enforced by the
explicit check of every checked operation. -/
structure Ratio where
  num : Int
  den : Int
deriving DecidableEq

/-- `Ratio::new` / `reduce`: divide both components by their gcd and move
the sign to the numerator. -/
def ratReduce (n d : Int) : Ratio :=
  let g : Int := Int.gcd n d
  let n' := n / g
  let d' := d / g
  if d' < 0 then ⟨-n', -d'⟩ else ⟨n', d'⟩

/-- Range check on a reduced `Ratio`'s components (used where the crate's
per-component `checked_mul` calls act on the already fully cancelled
components of the result). -/
def checkedRat (q : Ratio) : Except CompErr Ratio :=
  if i32Min ≤ q.num ∧ q.num ≤ i32Max ∧ q.den ≤ i32Max then .ok q
  else .error .computeError

/-- `Integer::gcd` of two `i32` values (non-negative), as an `Int`. -/
def igcd (a b : Int) : Int := (Int.gcd a b : Int)

/-- `impl Val for Rational32`: every operation is the corresponding
num-rational `checked_*` operation.

`checked_add`/`checked_sub` scale both operands to the lcm of the
denominators and check each intermediate for `i32` overflow before the
result is reduced: the lcm `(b.den / gcd) * d.den`, the two scaled
numerators `(lcm / den) * num`, and their sum (resp. difference); only
then does `Ratio::new` reduce, with no further check (the reduced
components of in-range inputs are in range).

`checked_mul` cancels `gcd(a.num, b.den)` and `gcd(a.den, b.num)` before
its two component `checked_mul`s; on reduced operands those products are
exactly the reduced result's components, so the check is the range check
on the reduced components.  `checked_div` (after rejecting a zero
divisor) is the same with the divisor inverted; its checks act on the
components before the sign is moved to the numerator, which agrees with
the reduced-component range check except when a component's magnitude is
exactly `2^31`.  `checked_pow` is only invoked with exponents 2 and 3,
for which intermediate overflow coincides with overflow of the reduced
result's components. -/
def ratOps : ValOps Ratio where
  add a b :=
    (checkedI32 (a.den / igcd a.den b.den * b.den)).bind fun lcm =>
    (checkedI32 (lcm / a.den * a.num)).bind fun lhsNumer =>
    (checkedI32 (lcm / b.den * b.num)).bind fun rhsNumer =>
    (checkedI32 (lhsNumer + rhsNumer)).map fun numer => ratReduce numer lcm
  sub a b :=
    (checkedI32 (a.den / igcd a.den b.den * b.den)).bind fun lcm =>
    (checkedI32 (lcm / a.den * a.num)).bind fun lhsNumer =>
    (checkedI32 (lcm / b.den * b.num)).bind fun rhsNumer =>
    (checkedI32 (lhsNumer - rhsNumer)).map fun numer => ratReduce numer lcm
  mul a b := checkedRat (ratReduce (a.num * b.num) (a.den * b.den))
  div a b :=
    if b.num = 0 then .error .computeError
    else checkedRat (ratReduce (a.num * b.den) (a.den * b.num))
  pow a k := checkedRat (ratReduce (a.num ^ k) (a.den ^ k))
  fromInteger i := ⟨i, 1⟩

/-- Parser modes: the five productions of the eval.rs grammar plus its
three `fold_many0` loops; a loop carries its accumulated
`Result<V, ComputeError>` exactly as the Rust fold does. -/
inductive PMode (V : Type)
  | expr
  | term
  | exponent
  | factor
  | parens
  | exprLoop (acc : Except CompErr V)
  | termLoop (acc : Except CompErr V)
  | expLoop (acc : Except CompErr V)

/-- Result of a nom parser: remaining input and value, or a nom error. -/
abbrev PResult (V : Type) := Except NomErr (List Char × V)

/-- `space0`: drop leading spaces. -/
def spaces (i : List Char) : List Char := i.dropWhile (fun c => c = ' ')

/-- `digit1` of nom: split off one or more leading ASCII digits. -/
def digit1 (i : List Char) : Option (List Char × List Char) :=
  let ds := i.takeWhile Char.isDigit
  if ds.isEmpty then none else some (ds, i.drop ds.length)

/-- Numeric value of a digit run (`i32::from_str`, before the range check). -/
def digitsToNat (ds : List Char) : Nat :=
  ds.foldl (fun a c => a * 10 + (c.toNat - '0'.toNat)) 0

/-- Convert the final state of a `fold_many0` (`.and_then(|(x, v)| v.map(..)
.map_err(|e| make_err(i, e)))`): an accumulated compute error becomes the
corresponding `Failure`. -/
def finishFold {V : Type} (i : List Char) : Except CompErr V → PResult V
  | .ok v => .ok (i, v)
  | .error e => .error (make_err e)

/-- The recursive-descent embedding of the eval.rs nom parser (`expr`,
`term`, `exponent`, `factor`, `parens`).  A `fold_many0` loop stops and
backtracks on a recoverable `Err::Error` of its inner parser, and
propagates an `Err::Failure`.  The `fuel` argument only forces
termination; every recursive call either consumes input or moves down the
fixed production chain, so the ample fuel supplied by `exprParse` is never
exhausted. -/
def runParser {V : Type} (ops : ValOps V) : Nat → PMode V → List Char → PResult V
  | 0, _, _ => .error .failureFail
  | fuel + 1, mode, i =>
    match mode with
    | .expr =>
      match runParser ops fuel .term i with
      | .ok (i1, v) => runParser ops fuel (.exprLoop (.ok v)) i1
      | .error e => .error e
    | .term =>
      match runParser ops fuel .exponent i with
      | .ok (i1, v) => runParser ops fuel (.termLoop (.ok v)) i1
      | .error e => .error e
    | .exponent =>
      match runParser ops fuel .factor i with
      | .ok (i1, v) => runParser ops fuel (.expLoop (.ok v)) i1
      | .error e => .error e
    | .factor =>
      match digit1 (spaces i) with
      | some (ds, i2) =>
        if digitsToNat ds ≤ 2 ^ 31 - 1 then
          .ok (spaces i2, ops.fromInteger (digitsToNat ds))
        else runParser ops fuel .parens i
      | none => runParser ops fuel .parens i
    | .parens =>
      match spaces i with
      | '(' :: rest =>
        match runParser ops fuel .expr rest with
        | .ok (')' :: i3, v) => .ok (spaces i3, v)
        | .ok (_, _) => .error .error
        | .error e => .error e
      | _ => .error .error
    | .exprLoop acc =>
      match i with
      | c :: rest =>
        if c = '+' ∨ c = '-' then
          match runParser ops fuel .term rest with
          | .ok (i1, v) =>
            runParser ops fuel
              (.exprLoop (acc.bind (fun a => if c = '+' then ops.add a v else ops.sub a v))) i1
          | .error .error => finishFold i acc
          | .error e => .error e
        else finishFold i acc
      | [] => finishFold [] acc
    | .termLoop acc =>
      match i with
      | c :: rest =>
        if c = '*' ∨ c = '/' then
          match runParser ops fuel .exponent rest with
          | .ok (i1, v) =>
            runParser ops fuel
              (.termLoop (acc.bind (fun a => if c = '*' then ops.mul a v else ops.div a v))) i1
          | .error .error => finishFold i acc
          | .error e => .error e
        else finishFold i acc
      | [] => finishFold [] acc
    | .expLoop acc =>
      match i with
      | c :: rest =>
        if c = '²' ∨ c = 's' then
          runParser ops fuel (.expLoop (acc.bind (fun a => ops.pow a 2))) rest
        else if c = '³' ∨ c = 'c' then
          runParser ops fuel (.expLoop (acc.bind (fun a => ops.pow a 3))) rest
        else finishFold i acc
      | [] => finishFold [] acc

/-- Run the whole-expression parser with ample fuel. -/
def exprParse {V : Type} (ops : ValOps V) (i : List Char) : PResult V :=
  runParser ops (6 * (i.length + 1)) .expr i

/-- `Rational32::to_integer` guarded by `is_integer`. -/
def ratToInt (q : Ratio) : Option Int := if q.den = 1 then some q.num else none

/-- `eval` from eval.rs: run the checked-integer pass; on success with no
trailing input return its value; on `Failure(Float)` (an inexact integer
division somewhere) rerun the whole expression with exact rationals and
require an exact integer final value; any other error is returned as is. -/
def eval (s : List Char) : Except NomErr Int :=
  match exprParse intOps s with
  | .ok (rem, v) => if rem = [] then .ok v else .error .failureFail
  | .error .failureFloat =>
    match exprParse ratOps s with
    | .ok (rem, q) =>
      if rem ≠ [] then .error .failureFail
      else
        match ratToInt q with
        | some n => .ok n
        | none => .error .failureFloat
    | .error e => .error e
  | .error e => .error e

/-! ## gen.rs : the equation generator

The mutually recursive generator procedures write one character per call
into a fixed buffer of `slots` bytes; they are embedded as one
structurally recursive driver `genGo` over an explicit mode, where `pre`
is the filled prefix (`index = pre.length`) and the visitor is modelled
by returning the emitted equations in visit order.  The `usize`
subtractions `buf.len() - 2` / `buf.len() - 3` of the guards are
truncated `Nat` subtractions (for the slot counts of interest,
`slots ≥ 5`, no subtraction underflows). -/

/-- Decimal digit characters of `n` (`write!("{}", v)` for a
non-negative value), via core's fuel-based `Nat.toDigits`. -/
def natChars (n : Nat) : List Char := Nat.toDigits 10 n

/-- Floor base-10 logarithm (`i32::ilog10` on positive values), computed
with structural fuel so that it reduces in the kernel. -/
def ilog10Go : Nat → Nat → Nat
  | 0, _ => 0
  | fuel + 1, n => if n < 10 then 0 else ilog10Go fuel (n / 10) + 1

/-- `v.ilog10()` for `v ≥ 1`. -/
def ilog10 (n : Nat) : Nat := ilog10Go n n

/-- `try_gen_eq` from gen.rs: at open-parenthesis depth 0, evaluate the
prefix; a non-negative value whose decimal width makes
`index + v_len + 1 = buf.len()` is emitted as `prefix ++ "=" ++ digits`
(`v_len` is `1` for `0` and `ilog10(v) + 1` otherwise). -/
def try_gen_eq (pre : List Char) (depth slots : Nat) : List (List Char) :=
  if 0 < depth then []
  else
    match eval pre with
    | .ok v =>
      if v < 0 then []
      else
        if pre.length + (if v = 0 then 1 else ilog10 v.toNat + 1) + 1 = slots then
          [pre ++ '=' :: natChars v.toNat]
        else []
    | .error _ => []

/-- The mutually recursive generator procedures of gen.rs as modes. -/
inductive GMode
  | nzDigit
  | digit (ndigits : Nat)
  | oper
  | squared
  | cubed
  | opened
  | closed
deriving DecidableEq

/-- Combined driver for `gen_nz_digit`, `gen_digit`, `gen_oper`,
`gen_squared`, `gen_cubed`, `gen_open` and `gen_close` of gen.rs.  The
`fuel` equals `slots - pre.length` at every call reachable from `gen` and
only forces termination (each recursive step writes one character, and
the guards stop before the fuel can run out). -/
def genGo : Nat → GMode → Nat → List Char → Nat → Bool → List (List Char)
  | 0, _, _, _, _, _ => []
  | fuel + 1, mode, depth, pre, slots, ext =>
    match mode with
    | .nzDigit =>
      if pre.length ≥ slots - 2 then []
      else
        (List.range' 1 9).flatMap (fun i =>
          try_gen_eq (pre ++ [Nat.digitChar i]) depth slots ++
          genGo fuel (.digit 1) depth (pre ++ [Nat.digitChar i]) slots ext ++
          genGo fuel .oper depth (pre ++ [Nat.digitChar i]) slots ext ++
          (if ext then
            genGo fuel .squared depth (pre ++ [Nat.digitChar i]) slots ext ++
            genGo fuel .cubed depth (pre ++ [Nat.digitChar i]) slots ext ++
            (if 0 < depth then
              genGo fuel .closed depth (pre ++ [Nat.digitChar i]) slots ext
            else [])
          else []))
    | .digit nd =>
      if pre.length ≥ slots - 2 then []
      else if nd ≥ (slots - 2) / 2 then []
      else
        (List.range' 1 9 ++ [0]).flatMap (fun i =>
          try_gen_eq (pre ++ [Nat.digitChar i]) depth slots ++
          genGo fuel (.digit (nd + 1)) depth (pre ++ [Nat.digitChar i]) slots ext ++
          genGo fuel .oper depth (pre ++ [Nat.digitChar i]) slots ext ++
          (if ext then
            genGo fuel .squared depth (pre ++ [Nat.digitChar i]) slots ext ++
            genGo fuel .cubed depth (pre ++ [Nat.digitChar i]) slots ext ++
            (if 0 < depth then
              genGo fuel .closed depth (pre ++ [Nat.digitChar i]) slots ext
            else [])
          else []))
    | .oper =>
      if pre.length > slots - 3 then []
      else
        ['-', '+', '*', '/'].flatMap (fun op =>
          genGo fuel .nzDigit depth (pre ++ [op]) slots ext ++
          genGo fuel .opened depth (pre ++ [op]) slots ext)
    | .squared =>
      if pre.length > slots - 2 then []
      else
        (if pre.length ≥ 3 then try_gen_eq (pre ++ ['s']) depth slots else []) ++
        genGo fuel .oper depth (pre ++ ['s']) slots true ++
        (if 0 < depth then genGo fuel .closed depth (pre ++ ['s']) slots ext else [])
    | .cubed =>
      if pre.length > slots - 2 then []
      else
        (if pre.length ≥ 2 then try_gen_eq (pre ++ ['c']) depth slots else []) ++
        genGo fuel .oper depth (pre ++ ['c']) slots true ++
        (if 0 < depth then genGo fuel .closed depth (pre ++ ['c']) slots ext else [])
    | .opened =>
      if pre.length > slots - 3 then []
      else
        genGo fuel .nzDigit (depth + 1) (pre ++ ['(']) slots true ++
        genGo fuel .opened (depth + 1) (pre ++ ['(']) slots ext
    | .closed =>
      if pre.length > slots - 2 then []
      else
        try_gen_eq (pre ++ [')']) (depth - 1) slots ++
        genGo fuel .oper (depth - 1) (pre ++ [')']) slots true ++
        genGo fuel .squared (depth - 1) (pre ++ [')']) slots ext ++
        genGo fuel .cubed (depth - 1) (pre ++ [')']) slots ext ++
        (if 0 < depth - 1 then genGo fuel .closed (depth - 1) (pre ++ [')']) slots ext
        else [])

/-- `gen(slots, visitor, extended)` from gen.rs: start with a nonzero
digit, and additionally with an open parenthesis when `extended`. -/
def gen (slots : Nat) (ext : Bool) : List (List Char) :=
  genGo slots .nzDigit 0 [] slots ext ++
  (if ext then genGo slots .opened 0 [] slots ext else [])

/-- A well-formed emitted equation of exactly `slots` characters: it
contains exactly one `=`, and it splits as `lhs ++ "=" ++ digits` where
`eval lhs` is the non-negative integer `v` and `digits` is the decimal
representation of `v` with no superfluous leading zero. -/
def ValidEq (slots : Nat) (s : List Char) : Prop :=
  s.length = slots ∧ s.count '=' = 1 ∧
  ∃ lhs v, s = lhs ++ '=' :: natChars v.toNat ∧ eval lhs = .ok v ∧ 0 ≤ v ∧
    '=' ∉ lhs ∧ (v = 0 ∨ (natChars v.toNat).head? ≠ some '0')

/-- The parenthesis and exponent tokens of the generator's alphabet
(`s`/`c` are the ASCII placeholders for the square and cube glyphs). -/
def specialTok (c : Char) : Prop := c = '(' ∨ c = ')' ∨ c = 's' ∨ c = 'c'

instance (c : Char) : Decidable (specialTok c) :=
  inferInstanceAs (Decidable (c = '(' ∨ c = ')' ∨ c = 's' ∨ c = 'c'))

/-- A buffer prefix free of parenthesis and exponent tokens. -/
def cleanPre (pre : List Char) : Prop := ∀ c ∈ pre, ¬specialTok c

/-- Minimal excess of the prefix length over the open-parenthesis depth
for each generator mode, once the prefix contains a token: a mode entered
right after `(` (a fresh operand or another `(`) guarantees two extra
characters (`d`, an operator), any other mode also has the operand
written inside the parentheses. -/
def GMode.minOff : GMode → Nat
  | .nzDigit => 2
  | .opened => 2
  | _ => 3

/-- Invariant of every `genGo` call reachable from a non-extended
top-level `gen`: positive depth means an earlier `(`; extended subtrees
and the exponent modes are only entered inside parentheses or behind a
token; `gen_close` runs only at positive depth; an operator (resp. a
fresh `(`) is written after at least `depth + 1` (resp. `depth + 2`)
characters; and once the prefix contains a token it is long — at least 5
characters back at depth 0, at least `depth + minOff` inside. -/
@[reducible] def GInv (mode : GMode) (depth : Nat) (pre : List Char) (ext : Bool) : Prop :=
  (0 < depth → ¬cleanPre pre) ∧
  (ext = true → (0 < depth ∨ ¬cleanPre pre)) ∧
  (mode = .closed → 0 < depth) ∧
  ((mode = .squared ∨ mode = .cubed) → (0 < depth ∨ ¬cleanPre pre)) ∧
  (mode = .oper → depth + 1 ≤ pre.length) ∧
  (mode = .opened → depth + 2 ≤ pre.length) ∧
  (¬cleanPre pre →
    (depth = 0 → 5 ≤ pre.length) ∧ (0 < depth → depth + mode.minOff ≤ pre.length))

/-! ## Theorems -/

theorem scorePass1_spec (l : List (Char × Char)) : ∀ (idx : Nat) (m : Masks) (t : Char → Nat),
    (scorePass1 l idx m t).1.correct = m.correct ++ corrOf l idx ∧
    (scorePass1 l idx m t).1.incorrect = m.incorrect ∧
    (scorePass1 l idx m t).1.not_present = m.not_present ∧
    ∀ c, (scorePass1 l idx m t).2 c = t c + mismCnt l c := by
  induction l with
  | nil => intro idx m t; simp [scorePass1, corrOf, mismCnt]
  | cons p rest ih =>
    intro idx m t
    obtain ⟨g, tr⟩ := p
    by_cases hg : g = tr
    · subst hg
      have h := ih (idx + 1) { m with correct := m.correct ++ [(idx, g)] } t
      simp only [scorePass1, eq_self_iff_true, if_true, corrOf, mismCnt] at h ⊢
      refine ⟨?_, h.2.1, h.2.2.1, fun c => by rw [h.2.2.2 c]; omega⟩
      rw [h.1, List.append_assoc]
      simp
    · have h := ih (idx + 1) m (bump t tr)
      simp only [scorePass1, if_neg hg, corrOf, mismCnt] at h ⊢
      refine ⟨h.1, h.2.1, h.2.2.1, fun c => ?_⟩
      rw [h.2.2.2 c, bump]
      by_cases hc : tr = c
      · subst hc; simp only [eq_self_iff_true, if_true]; omega
      · rw [if_neg (fun h' : c = tr => hc h'.symm), if_neg hc]
        omega

theorem corrOf_mem_iff (l : List (Char × Char)) : ∀ (idx i : Nat) (c : Char),
    ((i, c) ∈ corrOf l idx) ↔ ∃ k, i = idx + k ∧ l[k]? = some (c, c) := by
  induction l with
  | nil => intro idx i c; simp [corrOf]
  | cons p rest ih =>
    intro idx i c
    obtain ⟨g, tr⟩ := p
    by_cases hg : g = tr
    · subst hg
      simp only [corrOf, eq_self_iff_true, if_true, List.mem_cons, Prod.mk.injEq,
        ih (idx + 1) i c]
      constructor
      · rintro (⟨h1, h2⟩ | ⟨k, hk, hget⟩)
        · subst h1; subst h2; exact ⟨0, by omega, by simp⟩
        · exact ⟨k + 1, by omega, by simpa using hget⟩
      · rintro ⟨k, hk, hget⟩
        rcases k with _ | k
        · simp only [List.getElem?_cons_zero, Option.some.injEq, Prod.mk.injEq] at hget
          exact Or.inl ⟨by omega, hget.1.symm⟩
        · exact Or.inr ⟨k, by omega, by simpa using hget⟩
    · simp only [corrOf, if_neg hg, ih (idx + 1) i c]
      constructor
      · rintro ⟨k, hk, hget⟩
        exact ⟨k + 1, by omega, by simpa using hget⟩
      · rintro ⟨k, hk, hget⟩
        rcases k with _ | k
        · simp only [List.getElem?_cons_zero, Option.some.injEq, Prod.mk.injEq] at hget
          exact absurd (hget.1.trans hget.2.symm) hg
        · exact ⟨k, by omega, by simpa using hget⟩

theorem scorePass2_spec (l : List Char) : ∀ (idx : Nat) (m : Masks) (t : Char → Nat),
    (scorePass2 l idx m t).correct = m.correct ∧
    ∃ ai an,
      (scorePass2 l idx m t).incorrect = m.incorrect ++ ai ∧
      (scorePass2 l idx m t).not_present = m.not_present ++ an ∧
      (∀ p ∈ ai ++ an, (∃ k, p.1 = idx + k ∧ l[k]? = some p.2) ∧ p ∉ m.correct) ∧
      (∀ ch, cnt ai ch ≤ t ch) ∧
      (∀ p ∈ an, cnt ai p.2 = t p.2) := by
  induction l with
  | nil =>
    intro idx m t
    exact ⟨rfl, [], [], by simp [scorePass2], by simp [scorePass2], by simp,
      fun ch => by simp [cnt], by simp⟩
  | cons gc rest ih =>
    intro idx m t
    by_cases hc : (idx, gc) ∈ m.correct
    · obtain ⟨hcor, ai, an, hinc, hnp, hmem, hcnt, hnpc⟩ := ih (idx + 1) m t
      simp only [scorePass2, if_pos hc]
      refine ⟨hcor, ai, an, hinc, hnp, ?_, hcnt, hnpc⟩
      intro p hp
      obtain ⟨⟨k, hk, hget⟩, hnc⟩ := hmem p hp
      exact ⟨⟨k + 1, by omega, by simpa using hget⟩, hnc⟩
    · by_cases ht : 0 < t gc
      · obtain ⟨hcor, ai, an, hinc, hnp, hmem, hcnt, hnpc⟩ :=
          ih (idx + 1) { m with incorrect := m.incorrect ++ [(idx, gc)] } (debump t gc)
        simp only [scorePass2, if_neg hc, if_pos ht]
        refine ⟨hcor, (idx, gc) :: ai, an, ?_, hnp, ?_, ?_, ?_⟩
        · rw [hinc, List.append_assoc]
          simp
        · intro p hp
          rcases (by simpa using hp : p = (idx, gc) ∨ p ∈ ai ∨ p ∈ an) with hph | hpr | hpr
          · subst hph
            exact ⟨⟨0, by omega, by simp⟩, hc⟩
          · obtain ⟨⟨k, hk, hget⟩, hnc⟩ := hmem p (List.mem_append_left _ hpr)
            exact ⟨⟨k + 1, by omega, by simpa using hget⟩, hnc⟩
          · obtain ⟨⟨k, hk, hget⟩, hnc⟩ := hmem p (List.mem_append_right _ hpr)
            exact ⟨⟨k + 1, by omega, by simpa using hget⟩, hnc⟩
        · intro ch
          have hrec := hcnt ch
          simp only [debump] at hrec
          simp only [cnt]
          by_cases hch : gc = ch
          · subst hch
            simp only [eq_self_iff_true, if_true] at hrec ⊢
            omega
          · rw [if_neg hch]
            rw [if_neg (fun h' : ch = gc => hch h'.symm)] at hrec
            omega
        · intro p hp
          have hrec := hnpc p hp
          simp only [debump] at hrec
          simp only [cnt]
          by_cases hch : gc = p.2
          · rw [← hch] at hrec ⊢
            simp only [eq_self_iff_true, if_true] at hrec ⊢
            omega
          · rw [if_neg hch]
            rw [if_neg (fun h' : p.2 = gc => hch h'.symm)] at hrec
            omega
      · obtain ⟨hcor, ai, an, hinc, hnp, hmem, hcnt, hnpc⟩ :=
          ih (idx + 1) { m with not_present := m.not_present ++ [(idx, gc)] } t
        simp only [scorePass2, if_neg hc, if_neg ht]
        refine ⟨hcor, ai, (idx, gc) :: an, hinc, ?_, ?_, hcnt, ?_⟩
        · rw [hnp, List.append_assoc]
          simp
        · intro p hp
          rcases List.mem_append.mp hp with hpa | hpn
          · obtain ⟨⟨k, hk, hget⟩, hnc⟩ := hmem p (List.mem_append_left _ hpa)
            exact ⟨⟨k + 1, by omega, by simpa using hget⟩, hnc⟩
          · rcases List.mem_cons.mp hpn with hph | hpr
            · subst hph
              exact ⟨⟨0, by omega, by simp⟩, hc⟩
            · obtain ⟨⟨k, hk, hget⟩, hnc⟩ := hmem p (List.mem_append_right _ hpr)
              exact ⟨⟨k + 1, by omega, by simpa using hget⟩, hnc⟩
        · intro p hp
          rcases List.mem_cons.mp hp with hph | hpr
          · subst hph
            show cnt ai gc = t gc
            have := hcnt gc
            omega
          · exact hnpc p hpr

theorem consumeIncorrect_spec (l : List (Nat × Char)) : ∀ (t : Char → Nat),
    (∀ ch, cnt l ch ≤ t ch) →
    ∃ t', consumeIncorrect l t = some t' ∧ ∀ ch, t' ch = t ch - cnt l ch := by
  induction l with
  | nil =>
    intro t _
    exact ⟨t, rfl, fun ch => by simp [cnt]⟩
  | cons p rest ih =>
    intro t h
    obtain ⟨i, c⟩ := p
    have hc : ¬t c = 0 := by
      have := h c
      simp only [cnt, eq_self_iff_true, if_true] at this
      omega
    obtain ⟨t', ht', hval⟩ := ih (debump t c) (fun ch => by
      have := h ch
      simp only [cnt] at this
      simp only [debump]
      by_cases hch : ch = c
      · subst hch
        simp only [eq_self_iff_true, if_true] at this ⊢
        omega
      · rw [if_neg hch]
        rw [if_neg (fun h' : c = ch => hch h'.symm)] at this
        omega)
    refine ⟨t', by simp only [consumeIncorrect, if_neg hc]; exact ht', fun ch => ?_⟩
    rw [hval ch]
    simp only [debump, cnt]
    by_cases hch : ch = c
    · subst hch
      simp only [eq_self_iff_true, if_true]
      omega
    · rw [if_neg hch, if_neg (fun h' : c = ch => hch h'.symm)]
      omega

theorem countsOf_enumFrom (tl : List Char) : ∀ (gl : List Char) (idx : Nat)
    (cor : List (Nat × Char)),
    gl.length = tl.length →
    (∀ k x, ((idx + k, x) ∈ cor) ↔ (gl[k]? = some x ∧ tl[k]? = some x)) →
    ∀ ch, countsOf cor (List.enumFrom idx tl) ch = mismCnt (gl.zip tl) ch := by
  induction tl with
  | nil =>
    intro gl idx cor _ _ ch
    simp [List.enumFrom, countsOf, mismCnt]
  | cons tr trest ih =>
    intro gl idx cor hlen hmem ch
    cases gl with
    | nil => simp at hlen
    | cons gc grest =>
      have hmem' : ∀ k x, (idx + 1 + k, x) ∈ cor ↔ (grest[k]? = some x ∧ trest[k]? = some x) := by
        intro k x
        have := hmem (k + 1) x
        rw [show idx + (k + 1) = idx + 1 + k by omega] at this
        simpa using this
      have hrec := ih grest (idx + 1) cor (by simpa using hlen) hmem' ch
      simp only [List.zip] at hrec
      have hhead := hmem 0 tr
      simp only [Nat.add_zero, List.getElem?_cons_zero, Option.some.injEq] at hhead
      simp only [List.enumFrom, countsOf, List.zip, List.zipWith_cons_cons, mismCnt]
      by_cases hg : gc = tr
      · rw [if_pos (hhead.mpr ⟨hg, trivial⟩), if_pos hg, hrec]
        omega
      · rw [if_neg (fun hin => hg (hhead.mp hin).1), if_neg hg, bump]
        by_cases hch : ch = tr
        · subst hch
          simp only [eq_self_iff_true, if_true]
          omega
        · rw [if_neg hch, if_neg (fun h' : tr = ch => hch h'.symm), hrec]
          omega

/-- C1: for every pair of equal-length strings `guess` and `truth`, the mask
produced by `score guess truth` is consistent with the truth itself:
`matches_mask truth (score guess truth)` returns `true`. -/
theorem matches_mask_score (guess truth : List Char)
    (h : guess.length = truth.length) :
    matches_mask truth (score guess truth) = true := by
  obtain ⟨h2c, ai, an, h2i, h2n, h2mem, h2cnt, h2npc⟩ :=
    scorePass2_spec guess 0 (scorePass1 (guess.zip truth) 0 emptyMasks (fun _ => 0)).1
      (scorePass1 (guess.zip truth) 0 emptyMasks (fun _ => 0)).2
  obtain ⟨h1c, h1i, h1n, h1t⟩ := scorePass1_spec (guess.zip truth) 0 emptyMasks (fun _ => 0)
  have hscore : score guess truth =
      scorePass2 guess 0 (scorePass1 (guess.zip truth) 0 emptyMasks (fun _ => 0)).1
        (scorePass1 (guess.zip truth) 0 emptyMasks (fun _ => 0)).2 := rfl
  have mcor : (score guess truth).correct = corrOf (guess.zip truth) 0 := by
    rw [hscore, h2c, h1c]
    simp [emptyMasks]
  have minc : (score guess truth).incorrect = ai := by
    rw [hscore, h2i, h1i]
    simp [emptyMasks]
  have mnp : (score guess truth).not_present = an := by
    rw [hscore, h2n, h1n]
    simp [emptyMasks]
  have ht1 : ∀ c, (scorePass1 (guess.zip truth) 0 emptyMasks (fun _ => 0)).2 c
      = mismCnt (guess.zip truth) c := fun c => by simpa using h1t c
  have hcormem : ∀ (i : Nat) (x : Char),
      ((i, x) ∈ (score guess truth).correct) ↔
        (guess[i]? = some x ∧ truth[i]? = some x) := by
    intro i x
    rw [mcor, corrOf_mem_iff]
    constructor
    · rintro ⟨k, hk, hget⟩
      have hik : k = i := by omega
      subst hik
      simpa using List.getElem?_zip_eq_some.mp hget
    · intro hx
      exact ⟨i, by omega, List.getElem?_zip_eq_some.mpr ⟨hx.1, hx.2⟩⟩
  have hmem' : ∀ p ∈ ai ++ an, guess[p.1]? = some p.2 ∧ p ∉ (score guess truth).correct := by
    intro p hp
    obtain ⟨⟨k, hk, hget⟩, hnc⟩ := h2mem p hp
    have hpk : p.1 = k := by omega
    refine ⟨by rw [hpk]; exact hget, ?_⟩
    rw [mcor]
    intro hmem2
    refine hnc ?_
    rw [h1c]
    simpa [emptyMasks] using hmem2
  have hany_np :
      ((score guess truth).not_present.any (fun p => decide (p ∈ truth.enum))) = false := by
    rw [List.any_eq_false]
    intro p hp
    rw [mnp] at hp
    obtain ⟨hg, hnc'⟩ := hmem' p (List.mem_append_right _ hp)
    simp only [decide_eq_true_eq]
    intro hin
    rw [List.mem_enum_iff_getElem?] at hin
    exact hnc' ((hcormem p.1 p.2).mpr ⟨hg, hin⟩)
  have hany_inc :
      ((score guess truth).incorrect.any (fun p => decide (p ∈ truth.enum))) = false := by
    rw [List.any_eq_false]
    intro p hp
    rw [minc] at hp
    obtain ⟨hg, hnc'⟩ := hmem' p (List.mem_append_left _ hp)
    simp only [decide_eq_true_eq]
    intro hin
    rw [List.mem_enum_iff_getElem?] at hin
    exact hnc' ((hcormem p.1 p.2).mpr ⟨hg, hin⟩)
  have hfilt :
      ((score guess truth).correct.filter (fun p => decide (p ∈ truth.enum)))
        = (score guess truth).correct := by
    rw [List.filter_eq_self]
    intro p hp
    have hx := (hcormem p.1 p.2).mp hp
    simp only [decide_eq_true_eq]
    rw [List.mem_enum_iff_getElem?]
    exact hx.2
  have hcounts : ∀ c, countsOf (score guess truth).correct truth.enum c
      = mismCnt (guess.zip truth) c := by
    intro c
    have := countsOf_enumFrom truth guess 0 (score guess truth).correct h
      (fun k x => by simpa using hcormem k x) c
    simpa [List.enum] using this
  obtain ⟨t', hconsume, ht'⟩ :=
    consumeIncorrect_spec ai (countsOf (score guess truth).correct truth.enum)
      (fun ch => by rw [hcounts ch, ← ht1 ch]; exact h2cnt ch)
  have hall : ((score guess truth).not_present.all (fun p => decide (t' p.2 = 0))) = true := by
    rw [List.all_eq_true]
    intro p hp
    rw [mnp] at hp
    have hc1 := ht' p.2
    have hc2 := h2npc p hp
    rw [ht1 p.2] at hc2
    rw [hcounts p.2] at hc1
    simp only [decide_eq_true_eq]
    omega
  have hany_inc2 : (ai.any (fun p => decide (p ∈ truth.enum))) = false := by
    rw [← minc]
    exact hany_inc
  simp only [matches_mask, hany_np, hany_inc, hfilt, Bool.false_eq_true, if_false,
    lt_irrefl, minc, hany_inc2, hconsume, hall]

/-- Witness for C1 at the concrete input of the repository's `test_score`. -/
theorem matches_mask_score_witness :
    ("abc".data.length = "cbd".data.length) ∧
      matches_mask "cbd".data (score "abc".data "cbd".data) = true :=
  ⟨by decide, matches_mask_score "abc".data "cbd".data (by decide)⟩

/-! ## C8: filtering is idempotent and monotone -/

/-- C8: for every corpus and mask, keeping exactly the candidates for which
`matches_mask` holds is idempotent, and the filtered corpus never has more
elements than the input corpus. -/
theorem filterCorpus_idempotent_and_monotone (corpus : List (List Char)) (m : Masks) :
    filterCorpus (filterCorpus corpus m) m = filterCorpus corpus m ∧
      (filterCorpus corpus m).length ≤ corpus.length := by
  constructor
  · have hmem : ∀ a ∈ filterCorpus corpus m, matches_mask a m = true := by
      intro a ha
      simp only [filterCorpus] at ha
      exact (List.mem_filter.mp ha).2
    conv_lhs => rw [filterCorpus]
    rw [List.filter_eq_self]
    exact hmem
  · exact List.length_filter_le _ _

/-! ## C9: mask parsing rejects malformed input -/

theorem parseMaskGo_isSome (l : List (Char × Char)) : ∀ (idx : Nat) (m : Masks),
    (parseMaskGo l idx m).isSome = true ↔
      ∀ p ∈ l, p.1 ∈ correctCodes ∨ p.1 ∈ incorrectCodes ∨ p.1 ∈ notPresentCodes := by
  induction l with
  | nil => intro idx m; simp [parseMaskGo]
  | cons p rest ih =>
    intro idx m
    obtain ⟨mc, gc⟩ := p
    by_cases h1 : mc ∈ correctCodes
    · simp only [parseMaskGo, if_pos h1, List.forall_mem_cons, ih]
      simp [h1]
    · by_cases h2 : mc ∈ incorrectCodes
      · simp only [parseMaskGo, if_neg h1, if_pos h2, List.forall_mem_cons, ih]
        simp [h2]
      · by_cases h3 : mc ∈ notPresentCodes
        · simp only [parseMaskGo, if_neg h1, if_neg h2, if_pos h3, List.forall_mem_cons, ih]
          simp [h3]
        · simp only [parseMaskGo, if_neg h1, if_neg h2, if_neg h3, List.forall_mem_cons]
          simp [h1, h2, h3]

/-- C9: `parse_mask_results` returns `none` exactly when the mask length
differs from the guess length or some mask character is outside the
recognized code sets, and on `none` the session's corpus is unchanged. -/
theorem parse_mask_results_spec (guess mask : List Char) (options : List (List Char)) :
    ((parse_mask_results guess mask).isSome = true ↔
      (mask.length = guess.length ∧
        ∀ c ∈ mask, c ∈ correctCodes ∨ c ∈ incorrectCodes ∨ c ∈ notPresentCodes)) ∧
    (parse_mask_results guess mask = none → sessionStep options guess mask = options) := by
  constructor
  · rw [parse_mask_results]
    by_cases hlen : mask.length = guess.length
    · rw [if_neg (by omega), parseMaskGo_isSome]
      constructor
      · intro hforall
        refine ⟨hlen, fun c hc => ?_⟩
        have hc' : c ∈ (mask.zip guess).map Prod.fst := by
          rw [List.map_fst_zip mask guess (le_of_eq hlen)]
          exact hc
        obtain ⟨p, hp, hpc⟩ := List.mem_map.mp hc'
        rw [← hpc]
        exact hforall p hp
      · rintro ⟨-, hall⟩ p hp
        exact hall p.1 (List.of_mem_zip hp).1
    · rw [if_pos (by omega)]
      simp [hlen]
  · intro hnone
    simp [sessionStep, hnone]

/-! ## C6 / C7 / C10: entropy ranking and best guess -/

theorem foldl_maxStep_spec (f : List Char → ℝ) (c : List (List Char)) (h : c ≠ []) :
    ∃ w l₁ l₂, c = l₁ ++ w :: l₂ ∧
      ((c.map (fun v => (v, f v))).foldl maxStep none = some (w, f w)) ∧
      (∀ v ∈ l₁, f v ≤ f w) ∧ (∀ v ∈ l₂, f v < f w) := by
  induction c using List.reverseRecOn with
  | nil => exact absurd rfl h
  | append_singleton qs x ih =>
    rw [List.map_append, List.foldl_append]
    by_cases hq : qs = []
    · subst hq
      exact ⟨x, [], [], by simp, by simp [maxStep], by simp, by simp⟩
    · obtain ⟨w, l₁, l₂, hdec, hfold, hle, hlt⟩ := ih hq
      rw [hfold]
      simp only [List.map_cons, List.map_nil, List.foldl_cons, List.foldl_nil, maxStep]
      by_cases hcmp : f x < f w
      · rw [if_pos hcmp]
        refine ⟨w, l₁, l₂ ++ [x], by rw [hdec]; simp, rfl, hle, ?_⟩
        intro v hv
        rcases List.mem_append.mp hv with hv | hv
        · exact hlt v hv
        · simp only [List.mem_singleton] at hv
          subst hv
          exact hcmp
      · rw [if_neg hcmp]
        push_neg at hcmp
        refine ⟨x, qs, [], by simp, rfl, ?_, by simp⟩
        intro v hv
        rw [hdec] at hv
        rcases List.mem_append.mp hv with hv | hv
        · exact le_trans (hle v hv) hcmp
        · rcases List.mem_cons.mp hv with hv | hv
          · subst hv
            exact hcmp
          · exact le_trans (le_of_lt (hlt v hv)) hcmp

theorem entropy_corpus3_abc : compute_entropy "abc".data corpus3 = -2 := by
  rw [compute_entropy,
    show countMasks "abc".data corpus3 =
      [(⟨[(0, 'a'), (1, 'b'), (2, 'c')], [], []⟩, 1),
       (⟨[(0, 'a'), (1, 'b')], [], [(2, 'c')]⟩, 2)] from rfl]
  simp only [List.foldl_cons, List.foldl_nil]
  rw [show matchingCount corpus3 ⟨[(0, 'a'), (1, 'b'), (2, 'c')], [], []⟩ = 1 from rfl,
    show matchingCount corpus3 ⟨[(0, 'a'), (1, 'b')], [], [(2, 'c')]⟩ = 2 from rfl]
  norm_num [Real.logb_one, Real.logb_self_eq_one]

theorem entropy_corpus3_abd : compute_entropy "abd".data corpus3 = -2 := by
  rw [compute_entropy,
    show countMasks "abd".data corpus3 =
      [(⟨[(0, 'a'), (1, 'b')], [], [(2, 'd')]⟩, 2),
       (⟨[(0, 'a'), (1, 'b'), (2, 'd')], [], []⟩, 1)] from rfl]
  simp only [List.foldl_cons, List.foldl_nil]
  rw [show matchingCount corpus3 ⟨[(0, 'a'), (1, 'b')], [], [(2, 'd')]⟩ = 2 from rfl,
    show matchingCount corpus3 ⟨[(0, 'a'), (1, 'b'), (2, 'd')], [], []⟩ = 1 from rfl]
  norm_num [Real.logb_one, Real.logb_self_eq_one]

theorem entropy_corpus3_aba : compute_entropy "aba".data corpus3 = -2 := by
  rw [compute_entropy,
    show countMasks "aba".data corpus3 =
      [(⟨[(0, 'a'), (1, 'b')], [], [(2, 'a')]⟩, 2),
       (⟨[(0, 'a'), (1, 'b'), (2, 'a')], [], []⟩, 1)] from rfl]
  simp only [List.foldl_cons, List.foldl_nil]
  rw [show matchingCount corpus3 ⟨[(0, 'a'), (1, 'b')], [], [(2, 'a')]⟩ = 2 from rfl,
    show matchingCount corpus3 ⟨[(0, 'a'), (1, 'b'), (2, 'a')], [], []⟩ = 1 from rfl]
  norm_num [Real.logb_one, Real.logb_self_eq_one]

theorem best_guess_corpus3 : compute_best_guess corpus3 = some ("aba".data, -2) := by
  have e1 := entropy_corpus3_abc
  have e2 := entropy_corpus3_abd
  have e3 := entropy_corpus3_aba
  simp only [compute_best_guess, corpus3, List.map_cons, List.map_nil]
  simp only [corpus3] at e1 e2 e3
  rw [e1, e2, e3]
  simp only [List.foldl_cons, List.foldl_nil, maxStep]
  norm_num

/-- C7: on the corpus ["abc", "abd", "aba"], `compute_entropy` of the guess
"abc" is exactly -2, and `compute_best_guess` returns ("aba", -2). -/
theorem compute_entropy_and_best_guess_concrete :
    compute_entropy "abc".data corpus3 = -2 ∧
      compute_best_guess corpus3 = some ("aba".data, -2) :=
  ⟨entropy_corpus3_abc, best_guess_corpus3⟩

/-- Counterexample to C6 as stated: on ["abc", "abd", "aba"] every element
attains the maximal entropy -2 and the first one encountered in scan order
is "abc", yet `compute_best_guess` returns "aba" (the last one), so the
first-encountered tie-break claim is false. -/
theorem compute_best_guess_not_first_encountered :
    (∀ v ∈ corpus3, compute_entropy v corpus3 = -2) ∧
      corpus3[0]? = some "abc".data ∧
      compute_best_guess corpus3 = some ("aba".data, -2) ∧
      compute_best_guess corpus3 ≠ some ("abc".data, -2) := by
  refine ⟨?_, rfl, best_guess_corpus3, ?_⟩
  · intro v hv
    rcases (by simpa [corpus3] using hv :
        v = "abc".data ∨ v = "abd".data ∨ v = "aba".data) with rfl | rfl | rfl
    · exact entropy_corpus3_abc
    · exact entropy_corpus3_abd
    · exact entropy_corpus3_aba
  · rw [best_guess_corpus3]
    intro hcontra
    have h1 : "aba".data = "abc".data := congrArg Prod.fst (Option.some.inj hcontra)
    exact absurd h1 (by decide)

/-- C6 (amended): for every non-empty corpus, `compute_best_guess` returns
a corpus element attaining the maximal entropy score paired with that
score, and when several elements attain the maximum it returns the one
last encountered in the deterministic scan order (everything after the
returned occurrence scores strictly lower). -/
theorem compute_best_guess_last_maximizer (corpus : List (List Char)) (h : corpus ≠ []) :
    ∃ w l₁ l₂, corpus = l₁ ++ w :: l₂ ∧
      compute_best_guess corpus = some (w, compute_entropy w corpus) ∧
      (∀ v ∈ corpus, compute_entropy v corpus ≤ compute_entropy w corpus) ∧
      (∀ v ∈ l₂, compute_entropy v corpus < compute_entropy w corpus) := by
  obtain ⟨w, l₁, l₂, hdec, hfold, hle, hlt⟩ :=
    foldl_maxStep_spec (fun v => compute_entropy v corpus) corpus h
  refine ⟨w, l₁, l₂, hdec, by simpa [compute_best_guess] using hfold, ?_, hlt⟩
  intro v hv
  rw [hdec] at hv
  rcases List.mem_append.mp hv with hv | hv
  · exact hle v hv
  · rcases List.mem_cons.mp hv with hv | hv
    · subst hv
      exact le_refl _
    · exact le_of_lt (hlt v hv)

/-- Witness for the amended C6 at the concrete test corpus. -/
theorem compute_best_guess_last_maximizer_witness :
    corpus3 ≠ [] ∧ ∃ w l₁ l₂, corpus3 = l₁ ++ w :: l₂ ∧
      compute_best_guess corpus3 = some (w, compute_entropy w corpus3) ∧
      (∀ v ∈ corpus3, compute_entropy v corpus3 ≤ compute_entropy w corpus3) ∧
      (∀ v ∈ l₂, compute_entropy v corpus3 < compute_entropy w corpus3) :=
  ⟨by decide, compute_best_guess_last_maximizer corpus3 (by decide)⟩

/-- C10: `compute_best_guess` requires a non-empty corpus: on every
non-empty corpus it returns some corpus element paired with its entropy
(the `unwrap` cannot see `None`), while on the empty corpus the `unwrap`
of `None` panics, modelled as `none`. -/
theorem compute_best_guess_nonempty_spec (corpus : List (List Char)) :
    (corpus ≠ [] → ∃ w, w ∈ corpus ∧
        compute_best_guess corpus = some (w, compute_entropy w corpus)) ∧
      compute_best_guess [] = none := by
  refine ⟨fun h => ?_, rfl⟩
  obtain ⟨w, l₁, l₂, hdec, hfold, -, -⟩ :=
    foldl_maxStep_spec (fun v => compute_entropy v corpus) corpus h
  exact ⟨w, by rw [hdec]; simp, by simpa [compute_best_guess] using hfold⟩

/-- Witness for C10 at the concrete test corpus. -/
theorem compute_best_guess_nonempty_spec_witness :
    (corpus3 ≠ [] ∧ ∃ w, w ∈ corpus3 ∧
        compute_best_guess corpus3 = some (w, compute_entropy w corpus3)) ∧
      compute_best_guess [] = none :=
  ⟨⟨by decide, (compute_best_guess_nonempty_spec corpus3).1 (by decide)⟩,
    (compute_best_guess_nonempty_spec corpus3).2⟩

/-- Witness for C9 at a concrete malformed mask. -/
theorem parse_mask_results_spec_witness :
    (parse_mask_results "ab".data "2Q".data).isSome = false ∧
      (parse_mask_results "ab".data "2Q".data = none →
        sessionStep ["x=1".data] "ab".data "2Q".data = ["x=1".data]) :=
  ⟨by decide, (parse_mask_results_spec "ab".data "2Q".data ["x=1".data]).2⟩

/-! ## C2: two-phase evaluation -/

/-- C2: `eval` first runs the checked-integer pass; when that pass parses
the whole input it returns its value outright; exactly when the integer
pass signals an inexact division (`Failure(Float)`) the entire expression
is re-evaluated with exact reduced rationals, and then `eval` succeeds
with `n` iff the rational pass parses the whole input with the exact
integer value `n` (denominator 1); any other integer-pass error is
returned without a rational pass.  In particular
`eval "(5/4)*(4/5)" = 1` and `eval "4/5"` fails; and because the
rational pass uses num-rational's checked operations, an `i32` overflow
in a checked intermediate fails it even when the reduced value would
fit: `checked_add`'s numerator sum overflows on
`"2147483647/2+2147483647/2"`, so `eval` errors there although the exact
value is the representable integer 2147483647. -/
theorem eval_two_phase (s : List Char) :
    (∀ rem v, exprParse intOps s = .ok (rem, v) →
      ((rem = [] → eval s = .ok v) ∧ (rem ≠ [] → eval s = .error .failureFail))) ∧
    (exprParse intOps s = .error .failureFloat →
      ∀ n : Int, (eval s = .ok n ↔ exprParse ratOps s = .ok ([], ⟨n, 1⟩))) ∧
    (∀ e, exprParse intOps s = .error e → e ≠ .failureFloat → eval s = .error e) ∧
    eval "(5/4)*(4/5)".data = .ok 1 ∧
    eval "4/5".data = .error .failureFloat ∧
    eval "2147483647/2+2147483647/2".data = .error .failureFail := by
  refine ⟨?_, ?_, ?_, rfl, rfl, rfl⟩
  · intro rem v hok
    constructor
    · intro hrem
      simp only [eval, hok, if_pos hrem]
    · intro hrem
      simp only [eval, hok, if_neg hrem]
  · intro hfloat n
    simp only [eval, hfloat]
    cases hr : exprParse ratOps s with
    | ok p =>
      obtain ⟨rem, q⟩ := p
      obtain ⟨qn, qd⟩ := q
      by_cases hrem : rem = []
      · subst hrem
        by_cases hd : qd = 1
        · subst hd
          simp [ratToInt]
        · simp [ratToInt, hd]
      · simp [hrem]
    | error e => simp
  · intro e herr hne
    cases e with
    | error => simp only [eval, herr]
    | failureFail => simp only [eval, herr]
    | failureFloat => exact absurd rfl hne

/-- Witness for C2: hypotheses discharged concretely, at "4/5" (inexact
division, rational retry, non-integral result) and at "1+2" (clean
integer pass). -/
theorem eval_two_phase_witness :
    (exprParse intOps "4/5".data = .error .failureFloat) ∧
      (eval "4/5".data = .ok 1 ↔ exprParse ratOps "4/5".data = .ok ([], ⟨1, 1⟩)) ∧
      (exprParse intOps "1+2".data = .ok ([], 3)) ∧ eval "1+2".data = .ok 3 :=
  ⟨rfl, (eval_two_phase "4/5".data).2.1 rfl 1,
    rfl, ((eval_two_phase "1+2".data).1 [] 3 rfl).1 rfl⟩

/-! ## Decimal-digit lemmas for the generator -/

theorem digitChar_isDigit (m : Nat) (hm : m < 10) : (Nat.digitChar m).isDigit = true := by
  interval_cases m <;> decide

theorem digitChar_ne_zero (m : Nat) (h0 : 0 < m) (hm : m < 10) : Nat.digitChar m ≠ '0' := by
  interval_cases m <;> decide

theorem toDigitsCore_mem : ∀ (fuel n : Nat) (ds : List Char) (c : Char),
    c ∈ Nat.toDigitsCore 10 fuel n ds → c ∈ ds ∨ c.isDigit = true := by
  intro fuel
  induction fuel with
  | zero =>
    intro n ds c hc
    exact Or.inl (by simpa [Nat.toDigitsCore] using hc)
  | succ fuel ih =>
    intro n ds c hc
    simp only [Nat.toDigitsCore] at hc
    split at hc
    · rcases List.mem_cons.mp hc with rfl | h
      · exact Or.inr (digitChar_isDigit _ (Nat.mod_lt _ (by norm_num)))
      · exact Or.inl h
    · rcases ih _ _ _ hc with h | h
      · rcases List.mem_cons.mp h with rfl | h
        · exact Or.inr (digitChar_isDigit _ (Nat.mod_lt _ (by norm_num)))
        · exact Or.inl h
      · exact Or.inr h

theorem natChars_isDigit (n : Nat) (c : Char) (hc : c ∈ natChars n) : c.isDigit = true := by
  rcases toDigitsCore_mem (n + 1) n [] c hc with h | h
  · exact absurd h (List.not_mem_nil c)
  · exact h

theorem ilog10Go_fuel_eq : ∀ (n f1 f2 : Nat), n ≤ f1 → n ≤ f2 →
    ilog10Go f1 n = ilog10Go f2 n := by
  intro n
  induction n using Nat.strong_induction_on with
  | _ n ih =>
    intro f1 f2 h1 h2
    by_cases hn : n < 10
    · cases f1 with
      | zero =>
        cases f2 with
        | zero => rfl
        | succ f2 => simp [ilog10Go, hn]
      | succ f1 =>
        cases f2 with
        | zero => simp [ilog10Go, hn]
        | succ f2 => simp [ilog10Go, hn]
    · obtain ⟨g1, rfl⟩ : ∃ g, f1 = g + 1 := ⟨f1 - 1, by omega⟩
      obtain ⟨g2, rfl⟩ : ∃ g, f2 = g + 1 := ⟨f2 - 1, by omega⟩
      simp only [ilog10Go, if_neg hn]
      rw [ih (n / 10) (by omega) g1 g2 (by omega) (by omega)]

theorem ilog10_lt10 (n : Nat) (hn : n < 10) : ilog10 n = 0 := by
  cases n with
  | zero => rfl
  | succ g => simp [ilog10, ilog10Go, hn]

theorem ilog10_of_ge (n : Nat) (hn : 10 ≤ n) : ilog10 n = ilog10 (n / 10) + 1 := by
  obtain ⟨g, rfl⟩ : ∃ g, n = g + 1 := ⟨n - 1, by omega⟩
  show ilog10Go (g + 1) (g + 1) = ilog10 ((g + 1) / 10) + 1
  simp only [ilog10Go, if_neg (by omega : ¬g + 1 < 10)]
  rw [show ilog10 ((g + 1) / 10) = ilog10Go ((g + 1) / 10) ((g + 1) / 10) from rfl]
  rw [ilog10Go_fuel_eq ((g + 1) / 10) g ((g + 1) / 10) (by omega) (le_refl _)]

theorem toDigitsCore_length : ∀ (n fuel : Nat) (ds : List Char), n < fuel →
    (Nat.toDigitsCore 10 fuel n ds).length
      = (if n < 10 then 1 else ilog10 n + 1) + ds.length := by
  intro n
  induction n using Nat.strong_induction_on with
  | _ n ih =>
    intro fuel ds hf
    obtain ⟨g, rfl⟩ : ∃ g, fuel = g + 1 := ⟨fuel - 1, by omega⟩
    simp only [Nat.toDigitsCore]
    split
    · rename_i hdiv
      rw [if_pos (by omega)]
      simp only [List.length_cons]
      omega
    · rename_i hdiv
      rw [ih (n / 10) (by omega) g _ (by omega)]
      rw [if_neg (by omega : ¬n < 10), ilog10_of_ge n (by omega)]
      by_cases h10 : n / 10 < 10
      · rw [if_pos h10, ilog10_lt10 _ h10]
        simp
        omega
      · rw [if_neg h10]
        simp
        omega

theorem natChars_length (n : Nat) :
    (natChars n).length = if n = 0 then 1 else ilog10 n + 1 := by
  rw [natChars, Nat.toDigits, toDigitsCore_length n (n + 1) [] (by omega)]
  by_cases h0 : n = 0
  · subst h0
    simp [ilog10_lt10]
  · by_cases h10 : n < 10
    · rw [if_pos h10, if_neg h0, ilog10_lt10 _ h10]
      simp
    · rw [if_neg h10, if_neg h0]
      simp

theorem toDigitsCore_head : ∀ (n fuel : Nat) (ds : List Char), n < fuel → 0 < n →
    ∃ m, 0 < m ∧ m < 10 ∧
      (Nat.toDigitsCore 10 fuel n ds).head? = some (Nat.digitChar m) := by
  intro n
  induction n using Nat.strong_induction_on with
  | _ n ih =>
    intro fuel ds hf h0
    obtain ⟨g, rfl⟩ : ∃ g, fuel = g + 1 := ⟨fuel - 1, by omega⟩
    simp only [Nat.toDigitsCore]
    split
    · rename_i hdiv
      exact ⟨n % 10, by omega, by omega, by simp⟩
    · rename_i hdiv
      exact ih (n / 10) (by omega) g _ (by omega) (by omega)

theorem natChars_head_ne_zero (n : Nat) (h0 : n ≠ 0) :
    (natChars n).head? ≠ some '0' := by
  obtain ⟨m, hm0, hm10, hhead⟩ := toDigitsCore_head n (n + 1) [] (by omega) (by omega)
  rw [natChars, Nat.toDigits, hhead]
  intro hcontra
  exact digitChar_ne_zero m hm0 hm10 (Option.some.inj hcontra)

theorem natChars_not_eq_mem (n : Nat) : '=' ∉ natChars n := by
  intro hc
  have := natChars_isDigit n '=' hc
  simp at this

/-! ## C4: every emitted string is a valid equation -/

theorem try_gen_eq_sound (slots : Nat) (pre : List Char) (depth : Nat) (s : List Char)
    (hpre : '=' ∉ pre) (hs : s ∈ try_gen_eq pre depth slots) : ValidEq slots s := by
  rw [try_gen_eq] at hs
  split at hs
  · exact absurd hs (List.not_mem_nil s)
  · split at hs
    · rename_i v hev
      split at hs
      · exact absurd hs (List.not_mem_nil s)
      · rename_i hneg
        have hvnat : (if v = 0 then 1 else ilog10 v.toNat + 1)
            = (natChars v.toNat).length := by
          rw [natChars_length]
          by_cases hv0 : v = 0
          · simp [hv0]
          · rw [if_neg hv0, if_neg (by omega : ¬v.toNat = 0)]
        rw [hvnat] at hs
        split at hs
        · rename_i hlen
          rw [List.mem_singleton] at hs
          subst hs
          refine ⟨?_, ?_, pre, v, rfl, hev, by omega, hpre, ?_⟩
          · simp only [List.length_append, List.length_cons]
            omega
          · rw [List.count_append, List.count_cons]
            rw [List.count_eq_zero.mpr hpre, List.count_eq_zero.mpr (natChars_not_eq_mem _)]
            simp
          · by_cases hv0 : v = 0
            · exact Or.inl hv0
            · exact Or.inr (natChars_head_ne_zero _ (by omega))
        · exact absurd hs (List.not_mem_nil s)
    · exact absurd hs (List.not_mem_nil s)

theorem digitChar_ne_eqsign (i : Nat) (hi : i < 10) : Nat.digitChar i ≠ '=' := by
  interval_cases i <;> decide

theorem not_eq_mem_append (pre : List Char) (c : Char) (hpre : '=' ∉ pre) (hc : c ≠ '=') :
    '=' ∉ pre ++ [c] := by
  intro h
  rcases List.mem_append.mp h with h | h
  · exact hpre h
  · rw [List.mem_singleton] at h
    exact hc h.symm

theorem genGo_sound (slots : Nat) : ∀ (fuel : Nat) (mode : GMode) (depth : Nat)
    (pre : List Char) (ext : Bool) (s : List Char), '=' ∉ pre →
    s ∈ genGo fuel mode depth pre slots ext → ValidEq slots s := by
  intro fuel
  induction fuel with
  | zero =>
    intro mode depth pre ext s _ hs
    simp [genGo] at hs
  | succ fuel ih =>
    intro mode depth pre ext s hpre hs
    cases mode with
    | nzDigit =>
      rw [genGo] at hs
      split at hs
      · exact absurd hs (List.not_mem_nil s)
      · rw [List.mem_flatMap] at hs
        obtain ⟨i, hi, hs⟩ := hs
        have hi10 : i < 10 := by
          rcases List.mem_range'.mp hi with ⟨j, hj, rfl⟩
          omega
        have hpre' := not_eq_mem_append pre (Nat.digitChar i) hpre (digitChar_ne_eqsign i hi10)
        simp only [List.mem_append] at hs
        rcases hs with ((h | h) | h) | h
        · exact try_gen_eq_sound slots _ _ _ hpre' h
        · exact ih _ _ _ _ _ hpre' h
        · exact ih _ _ _ _ _ hpre' h
        · split at h
          · simp only [List.mem_append] at h
            rcases h with (h | h) | h
            · exact ih _ _ _ _ _ hpre' h
            · exact ih _ _ _ _ _ hpre' h
            · split at h
              · exact ih _ _ _ _ _ hpre' h
              · exact absurd h (List.not_mem_nil s)
          · exact absurd h (List.not_mem_nil s)
    | digit nd =>
      rw [genGo] at hs
      split at hs
      · exact absurd hs (List.not_mem_nil s)
      · split at hs
        · exact absurd hs (List.not_mem_nil s)
        · rw [List.mem_flatMap] at hs
          obtain ⟨i, hi, hs⟩ := hs
          have hi10 : i < 10 := by
            rcases List.mem_append.mp hi with hi | hi
            · rcases List.mem_range'.mp hi with ⟨j, hj, rfl⟩
              omega
            · rw [List.mem_singleton] at hi
              omega
          have hpre' := not_eq_mem_append pre (Nat.digitChar i) hpre (digitChar_ne_eqsign i hi10)
          simp only [List.mem_append] at hs
          rcases hs with ((h | h) | h) | h
          · exact try_gen_eq_sound slots _ _ _ hpre' h
          · exact ih _ _ _ _ _ hpre' h
          · exact ih _ _ _ _ _ hpre' h
          · split at h
            · simp only [List.mem_append] at h
              rcases h with (h | h) | h
              · exact ih _ _ _ _ _ hpre' h
              · exact ih _ _ _ _ _ hpre' h
              · split at h
                · exact ih _ _ _ _ _ hpre' h
                · exact absurd h (List.not_mem_nil s)
            · exact absurd h (List.not_mem_nil s)
    | oper =>
      rw [genGo] at hs
      split at hs
      · exact absurd hs (List.not_mem_nil s)
      · rw [List.mem_flatMap] at hs
        obtain ⟨op, hop, hs⟩ := hs
        have hop' : op ≠ '=' := by
          fin_cases hop <;> decide
        have hpre' := not_eq_mem_append pre op hpre hop'
        rcases List.mem_append.mp hs with h | h
        · exact ih _ _ _ _ _ hpre' h
        · exact ih _ _ _ _ _ hpre' h
    | squared =>
      rw [genGo] at hs
      split at hs
      · exact absurd hs (List.not_mem_nil s)
      · have hpre' := not_eq_mem_append pre 's' hpre (by decide)
        simp only [List.mem_append] at hs
        rcases hs with (h | h) | h
        · split at h
          · exact try_gen_eq_sound slots _ _ _ hpre' h
          · exact absurd h (List.not_mem_nil s)
        · exact ih _ _ _ _ _ hpre' h
        · split at h
          · exact ih _ _ _ _ _ hpre' h
          · exact absurd h (List.not_mem_nil s)
    | cubed =>
      rw [genGo] at hs
      split at hs
      · exact absurd hs (List.not_mem_nil s)
      · have hpre' := not_eq_mem_append pre 'c' hpre (by decide)
        simp only [List.mem_append] at hs
        rcases hs with (h | h) | h
        · split at h
          · exact try_gen_eq_sound slots _ _ _ hpre' h
          · exact absurd h (List.not_mem_nil s)
        · exact ih _ _ _ _ _ hpre' h
        · split at h
          · exact ih _ _ _ _ _ hpre' h
          · exact absurd h (List.not_mem_nil s)
    | opened =>
      rw [genGo] at hs
      split at hs
      · exact absurd hs (List.not_mem_nil s)
      · have hpre' := not_eq_mem_append pre '(' hpre (by decide)
        rcases List.mem_append.mp hs with h | h
        · exact ih _ _ _ _ _ hpre' h
        · exact ih _ _ _ _ _ hpre' h
    | closed =>
      rw [genGo] at hs
      split at hs
      · exact absurd hs (List.not_mem_nil s)
      · have hpre' := not_eq_mem_append pre ')' hpre (by decide)
        simp only [List.mem_append] at hs
        rcases hs with (((h | h) | h) | h) | h
        · exact try_gen_eq_sound slots _ _ _ hpre' h
        · exact ih _ _ _ _ _ hpre' h
        · exact ih _ _ _ _ _ hpre' h
        · exact ih _ _ _ _ _ hpre' h
        · split at h
          · exact ih _ _ _ _ _ hpre' h
          · exact absurd h (List.not_mem_nil s)

/-- C4: every string emitted by `gen slots visitor extended` has length
exactly `slots`, contains exactly one `=`, and splits as `lhs ++ "=" ++
rhs` where `eval lhs` is a non-negative integer whose decimal digit
representation, with no superfluous leading zero, is exactly `rhs`. -/
theorem gen_sound (slots : Nat) (ext : Bool) (s : List Char) (hs : s ∈ gen slots ext) :
    ValidEq slots s := by
  rw [gen] at hs
  rcases List.mem_append.mp hs with h | h
  · exact genGo_sound slots slots .nzDigit 0 [] ext s (by simp) h
  · split at h
    · exact genGo_sound slots slots .opened 0 [] ext s (by simp) h
    · exact absurd h (List.not_mem_nil s)

/-- Witness for C4 at the concrete 5-slot equation `1+2=3`. -/
theorem gen_sound_witness :
    ("1+2=3".data ∈ gen 5 false) ∧ ValidEq 5 "1+2=3".data :=
  have h : "1+2=3".data ∈ gen 5 false := by decide
  ⟨h, gen_sound 5 false "1+2=3".data h⟩

/-! ## C5: parentheses and exponents in non-extended mode -/

/-- Counterexample to C5 as stated: with `extended = false` and 7 slots
the generator emits `1+(2)=3`, which contains parentheses — `gen_oper`
always recurses into `gen_open`, and the parenthesized subtree behaves as
extended, so parenthesis and exponent tokens are not limited to
`extended = true`.  The membership proof descends along the branch
`digit 1 → operator + → open parenthesis` and evaluates only that
subtree. -/
theorem gen_non_extended_paren_counterexample :
    "1+(2)=3".data ∈ gen 7 false ∧ '(' ∈ "1+(2)=3".data ∧ ')' ∈ "1+(2)=3".data := by
  refine ⟨?_, by decide, by decide⟩
  have hsub : "1+(2)=3".data ∈ genGo 5 .opened 0 ['1', '+'] 7 false := by decide
  have h2 : "1+(2)=3".data ∈ genGo 6 .oper 0 ['1'] 7 false := by
    show "1+(2)=3".data ∈ genGo (5 + 1) .oper 0 ['1'] 7 false
    rw [genGo]
    rw [if_neg (by norm_num)]
    rw [List.mem_flatMap]
    refine ⟨'+', by norm_num, ?_⟩
    exact List.mem_append_right _ hsub
  rw [gen]
  apply List.mem_append_left
  show "1+(2)=3".data ∈ genGo (6 + 1) .nzDigit 0 [] 7 false
  rw [genGo]
  rw [if_neg (by norm_num)]
  rw [List.mem_flatMap]
  refine ⟨1, by norm_num, ?_⟩
  exact List.mem_append_left _ (List.mem_append_right _ h2)

theorem minOff_le_three (m : GMode) : m.minOff ≤ 3 := by
  cases m <;> simp [GMode.minOff]

theorem cleanPre_nil : cleanPre [] := fun c hc => absurd hc (List.not_mem_nil c)

theorem not_cleanPre_append (pre : List Char) (x : Char) (h : ¬cleanPre pre) :
    ¬cleanPre (pre ++ [x]) :=
  fun hcl => h fun c hc hspec => hcl c (List.mem_append_left _ hc) hspec

theorem not_cleanPre_special (pre : List Char) (x : Char) (hx : specialTok x) :
    ¬cleanPre (pre ++ [x]) :=
  fun hcl => hcl x (List.mem_append_right _ (List.mem_singleton_self x)) hx

theorem not_cleanPre_of_append (pre : List Char) (x : Char) (hx : ¬specialTok x)
    (h : ¬cleanPre (pre ++ [x])) : ¬cleanPre pre := by
  intro hcl
  apply h
  intro c hc hspec
  rcases List.mem_append.mp hc with hc | hc
  · exact hcl c hc hspec
  · rw [List.mem_singleton] at hc
    subst hc
    exact hx hspec

theorem digitChar_not_special (i : Nat) (hi : i < 10) : ¬specialTok (Nat.digitChar i) := by
  interval_cases i <;> decide

/-- One generator step that appends a non-token character and keeps the
depth preserves the invariant, for any target mode whose extra
obligations are supplied. -/
theorem GInv_step_same (m : GMode) (depth : Nat) (pre : List Char) (ext : Bool) (x : Char)
    (hx : ¬specialTok x)
    (hc : m = .closed → 0 < depth)
    (hd : (m = .squared ∨ m = .cubed) → (0 < depth ∨ ¬cleanPre pre))
    (hf : m = .opened → depth + 2 ≤ pre.length + 1)
    (ha : 0 < depth → ¬cleanPre pre)
    (hb : ext = true → (0 < depth ∨ ¬cleanPre pre))
    (hg : ¬cleanPre pre →
      (depth = 0 → 5 ≤ pre.length) ∧ (0 < depth → depth + 2 ≤ pre.length)) :
    GInv m depth (pre ++ [x]) ext := by
  have hlen : (pre ++ [x]).length = pre.length + 1 := by simp
  have hm3 : m.minOff ≤ 3 := minOff_le_three m
  refine ⟨fun hdp => not_cleanPre_append pre x (ha hdp),
    fun hx' => (hb hx').imp id (not_cleanPre_append pre x),
    hc,
    fun h => (hd h).imp id (not_cleanPre_append pre x),
    fun _ => ?_,
    fun h => by rw [hlen]; exact hf h,
    fun hncl => ?_⟩
  · rw [hlen]
    by_cases hdp : 0 < depth
    · have := (hg (ha hdp)).2 hdp
      omega
    · omega
  · have hnp := not_cleanPre_of_append pre x hx hncl
    have h5 := (hg hnp).1
    have hdd := (hg hnp).2
    rw [hlen]
    constructor
    · intro hd0
      have := h5 hd0
      omega
    · intro hdp
      have := hdd hdp
      omega

/-- One generator step that appends a parenthesis or exponent token
(making the buffer unclean) establishes the invariant at the child's
depth, given the child-specific length obligations. -/
theorem GInv_step_tok (m : GMode) (depth : Nat) (pre : List Char) (ext : Bool) (x : Char)
    (hx : specialTok x)
    (hc : m = .closed → 0 < depth)
    (he : m = .oper → depth + 1 ≤ pre.length + 1)
    (hf : m = .opened → depth + 2 ≤ pre.length + 1)
    (h5 : depth = 0 → 5 ≤ pre.length + 1)
    (hmo : 0 < depth → depth + m.minOff ≤ pre.length + 1) :
    GInv m depth (pre ++ [x]) ext := by
  have hlen : (pre ++ [x]).length = pre.length + 1 := by simp
  have hncl' := not_cleanPre_special pre x hx
  exact ⟨fun _ => hncl', fun _ => Or.inr hncl', hc,
    fun _ => Or.inr hncl',
    fun h => by rw [hlen]; exact he h,
    fun h => by rw [hlen]; exact hf h,
    fun _ => ⟨fun hd0 => by rw [hlen]; exact h5 hd0, fun hdp => by rw [hlen]; exact hmo hdp⟩⟩

/-- An emitted equation happens only at depth 0; if it carries a
parenthesis or exponent token, the token sits in the evaluated buffer
(never in `=` or the appended digits), and the equation is at least two
characters longer than that buffer. -/
theorem try_gen_eq_special (pre : List Char) (depth slots : Nat) (s : List Char)
    (hs : s ∈ try_gen_eq pre depth slots) (c : Char) (hc : c ∈ s) (hspec : specialTok c) :
    depth = 0 ∧ ¬cleanPre pre ∧ pre.length + 2 ≤ s.length := by
  rw [try_gen_eq] at hs
  split at hs
  · exact absurd hs (List.not_mem_nil s)
  · rename_i hdep
    split at hs
    · rename_i v hev
      split at hs
      · exact absurd hs (List.not_mem_nil s)
      · rename_i hneg
        have hvnat : (if v = 0 then 1 else ilog10 v.toNat + 1)
            = (natChars v.toNat).length := by
          rw [natChars_length]
          by_cases hv0 : v = 0
          · simp [hv0]
          · rw [if_neg hv0, if_neg (by omega : ¬v.toNat = 0)]
        rw [hvnat] at hs
        split at hs
        · rw [List.mem_singleton] at hs
          subst hs
          refine ⟨by omega, ?_, ?_⟩
          · rcases List.mem_append.mp hc with hcp | hcd
            · exact fun hcl => hcl c hcp hspec
            · exfalso
              rcases List.mem_cons.mp hcd with rfl | hcd
              · exact absurd hspec (by decide)
              · have hdig := natChars_isDigit _ _ hcd
                have hspec' : c = '(' ∨ c = ')' ∨ c = 's' ∨ c = 'c' := hspec
                rcases hspec' with rfl | rfl | rfl | rfl <;> exact absurd hdig (by decide)
          · have h1 : 1 ≤ (natChars v.toNat).length := by
              rw [natChars_length]
              split <;> omega
            simp only [List.length_append, List.length_cons]
            omega
        · exact absurd hs (List.not_mem_nil s)
    · exact absurd hs (List.not_mem_nil s)

/-- Depth-invariant induction over the generator: under `GInv`, every
emitted string that contains a parenthesis or exponent token has length
at least 7 (a parenthesized group needs `d`, an operator, `(`, an
operand, `)` before the `=` and at least one result digit). -/
theorem genGo_special (slots : Nat) : ∀ (fuel : Nat) (mode : GMode) (depth : Nat)
    (pre : List Char) (ext : Bool) (s : List Char), GInv mode depth pre ext →
    s ∈ genGo fuel mode depth pre slots ext → ∀ c ∈ s, specialTok c → 7 ≤ s.length := by
  intro fuel
  induction fuel with
  | zero =>
    intro mode depth pre ext s _ hs
    simp [genGo] at hs
  | succ fuel ih =>
    intro mode depth pre ext s hinv hs c hc hspec
    obtain ⟨hA, hB, hC, hD, hE, hF, hG⟩ := hinv
    cases mode with
    | nzDigit =>
      rw [genGo] at hs
      split at hs
      · exact absurd hs (List.not_mem_nil s)
      · rw [List.mem_flatMap] at hs
        obtain ⟨i, hi, hs⟩ := hs
        have hi10 : i < 10 := by
          rcases List.mem_range'.mp hi with ⟨j, hj, rfl⟩
          omega
        have hxns : ¬specialTok (Nat.digitChar i) := digitChar_not_special i hi10
        have hG2 : ¬cleanPre pre →
            (depth = 0 → 5 ≤ pre.length) ∧ (0 < depth → depth + 2 ≤ pre.length) := hG
        simp only [List.mem_append] at hs
        rcases hs with ((h | h) | h) | h
        · obtain ⟨hd0, hncl, hslen⟩ := try_gen_eq_special _ _ _ _ h c hc hspec
          have hnp := not_cleanPre_of_append pre (Nat.digitChar i) hxns hncl
          have h5 := (hG2 hnp).1 hd0
          have hlen1 : (pre ++ [Nat.digitChar i]).length = pre.length + 1 := by simp
          omega
        · refine ih _ _ _ _ _ ?_ h c hc hspec
          exact GInv_step_same (.digit 1) depth pre ext (Nat.digitChar i) hxns
            (fun h1 => GMode.noConfusion h1)
            (fun h1 => h1.elim (fun h2 => GMode.noConfusion h2) (fun h2 => GMode.noConfusion h2))
            (fun h1 => GMode.noConfusion h1) hA hB hG2
        · refine ih _ _ _ _ _ ?_ h c hc hspec
          exact GInv_step_same .oper depth pre ext (Nat.digitChar i) hxns
            (fun h1 => GMode.noConfusion h1)
            (fun h1 => h1.elim (fun h2 => GMode.noConfusion h2) (fun h2 => GMode.noConfusion h2))
            (fun h1 => GMode.noConfusion h1) hA hB hG2
        · split at h
          · rename_i hext
            simp only [List.mem_append] at h
            rcases h with (h | h) | h
            · refine ih _ _ _ _ _ ?_ h c hc hspec
              exact GInv_step_same .squared depth pre ext (Nat.digitChar i) hxns
                (fun h1 => GMode.noConfusion h1)
                (fun _ => hB hext)
                (fun h1 => GMode.noConfusion h1) hA hB hG2
            · refine ih _ _ _ _ _ ?_ h c hc hspec
              exact GInv_step_same .cubed depth pre ext (Nat.digitChar i) hxns
                (fun h1 => GMode.noConfusion h1)
                (fun _ => hB hext)
                (fun h1 => GMode.noConfusion h1) hA hB hG2
            · split at h
              · rename_i hdp
                refine ih _ _ _ _ _ ?_ h c hc hspec
                exact GInv_step_same .closed depth pre ext (Nat.digitChar i) hxns
                  (fun _ => hdp)
                  (fun h1 => h1.elim (fun h2 => GMode.noConfusion h2)
                    (fun h2 => GMode.noConfusion h2))
                  (fun h1 => GMode.noConfusion h1) hA hB hG2
              · exact absurd h (List.not_mem_nil s)
          · exact absurd h (List.not_mem_nil s)
    | digit nd =>
      rw [genGo] at hs
      split at hs
      · exact absurd hs (List.not_mem_nil s)
      · split at hs
        · exact absurd hs (List.not_mem_nil s)
        · rw [List.mem_flatMap] at hs
          obtain ⟨i, hi, hs⟩ := hs
          have hi10 : i < 10 := by
            rcases List.mem_append.mp hi with hi | hi
            · rcases List.mem_range'.mp hi with ⟨j, hj, rfl⟩
              omega
            · rw [List.mem_singleton] at hi
              omega
          have hxns : ¬specialTok (Nat.digitChar i) := digitChar_not_special i hi10
          have hG2 : ¬cleanPre pre →
              (depth = 0 → 5 ≤ pre.length) ∧ (0 < depth → depth + 2 ≤ pre.length) := by
            intro hn
            refine ⟨(hG hn).1, fun hdp => ?_⟩
            have h3 : depth + 3 ≤ pre.length := (hG hn).2 hdp
            omega
          simp only [List.mem_append] at hs
          rcases hs with ((h | h) | h) | h
          · obtain ⟨hd0, hncl, hslen⟩ := try_gen_eq_special _ _ _ _ h c hc hspec
            have hnp := not_cleanPre_of_append pre (Nat.digitChar i) hxns hncl
            have h5 := (hG2 hnp).1 hd0
            have hlen1 : (pre ++ [Nat.digitChar i]).length = pre.length + 1 := by simp
            omega
          · refine ih _ _ _ _ _ ?_ h c hc hspec
            exact GInv_step_same (.digit (nd + 1)) depth pre ext (Nat.digitChar i) hxns
              (fun h1 => GMode.noConfusion h1)
              (fun h1 => h1.elim (fun h2 => GMode.noConfusion h2)
                (fun h2 => GMode.noConfusion h2))
              (fun h1 => GMode.noConfusion h1) hA hB hG2
          · refine ih _ _ _ _ _ ?_ h c hc hspec
            exact GInv_step_same .oper depth pre ext (Nat.digitChar i) hxns
              (fun h1 => GMode.noConfusion h1)
              (fun h1 => h1.elim (fun h2 => GMode.noConfusion h2)
                (fun h2 => GMode.noConfusion h2))
              (fun h1 => GMode.noConfusion h1) hA hB hG2
          · split at h
            · rename_i hext
              simp only [List.mem_append] at h
              rcases h with (h | h) | h
              · refine ih _ _ _ _ _ ?_ h c hc hspec
                exact GInv_step_same .squared depth pre ext (Nat.digitChar i) hxns
                  (fun h1 => GMode.noConfusion h1)
                  (fun _ => hB hext)
                  (fun h1 => GMode.noConfusion h1) hA hB hG2
              · refine ih _ _ _ _ _ ?_ h c hc hspec
                exact GInv_step_same .cubed depth pre ext (Nat.digitChar i) hxns
                  (fun h1 => GMode.noConfusion h1)
                  (fun _ => hB hext)
                  (fun h1 => GMode.noConfusion h1) hA hB hG2
              · split at h
                · rename_i hdp
                  refine ih _ _ _ _ _ ?_ h c hc hspec
                  exact GInv_step_same .closed depth pre ext (Nat.digitChar i) hxns
                    (fun _ => hdp)
                    (fun h1 => h1.elim (fun h2 => GMode.noConfusion h2)
                      (fun h2 => GMode.noConfusion h2))
                    (fun h1 => GMode.noConfusion h1) hA hB hG2
                · exact absurd h (List.not_mem_nil s)
            · exact absurd h (List.not_mem_nil s)
    | oper =>
      rw [genGo] at hs
      split at hs
      · exact absurd hs (List.not_mem_nil s)
      · rw [List.mem_flatMap] at hs
        obtain ⟨op, hop, hs⟩ := hs
        have hxns : ¬specialTok op := by fin_cases hop <;> decide
        have hEop : depth + 1 ≤ pre.length := hE rfl
        have hG2 : ¬cleanPre pre →
            (depth = 0 → 5 ≤ pre.length) ∧ (0 < depth → depth + 2 ≤ pre.length) := by
          intro hn
          refine ⟨(hG hn).1, fun hdp => ?_⟩
          have h3 : depth + 3 ≤ pre.length := (hG hn).2 hdp
          omega
        rcases List.mem_append.mp hs with h | h
        · refine ih _ _ _ _ _ ?_ h c hc hspec
          exact GInv_step_same .nzDigit depth pre ext op hxns
            (fun h1 => GMode.noConfusion h1)
            (fun h1 => h1.elim (fun h2 => GMode.noConfusion h2) (fun h2 => GMode.noConfusion h2))
            (fun h1 => GMode.noConfusion h1) hA hB hG2
        · refine ih _ _ _ _ _ ?_ h c hc hspec
          exact GInv_step_same .opened depth pre ext op hxns
            (fun h1 => GMode.noConfusion h1)
            (fun h1 => h1.elim (fun h2 => GMode.noConfusion h2) (fun h2 => GMode.noConfusion h2))
            (fun _ => by omega) hA hB hG2
    | squared =>
      rw [genGo] at hs
      split at hs
      · exact absurd hs (List.not_mem_nil s)
      · have hG2 : ¬cleanPre pre →
            (depth = 0 → 5 ≤ pre.length) ∧ (0 < depth → depth + 2 ≤ pre.length) := by
          intro hn
          refine ⟨(hG hn).1, fun hdp => ?_⟩
          have h3 : depth + 3 ≤ pre.length := (hG hn).2 hdp
          omega
        have h5' : depth = 0 → 5 ≤ pre.length := by
          intro hd0
          rcases hD (Or.inl rfl) with hdp | hn
          · omega
          · exact (hG2 hn).1 hd0
        have hdd' : 0 < depth → depth + 2 ≤ pre.length :=
          fun hdp => (hG2 (hA hdp)).2 hdp
        simp only [List.mem_append] at hs
        rcases hs with (h | h) | h
        · split at h
          · obtain ⟨hd0, -, hslen⟩ := try_gen_eq_special _ _ _ _ h c hc hspec
            have := h5' hd0
            have hlen1 : (pre ++ ['s']).length = pre.length + 1 := by simp
            omega
          · exact absurd h (List.not_mem_nil s)
        · refine ih _ _ _ _ _ ?_ h c hc hspec
          have hEarg : depth + 1 ≤ pre.length + 1 := by
            by_cases hdp : 0 < depth
            · have := hdd' hdp
              omega
            · omega
          have hMOarg : 0 < depth → depth + GMode.minOff .oper ≤ pre.length + 1 := by
            intro hdp
            have := hdd' hdp
            show depth + 3 ≤ pre.length + 1
            omega
          exact GInv_step_tok .oper depth pre true 's' (Or.inr (Or.inr (Or.inl rfl)))
            (fun h1 => GMode.noConfusion h1) (fun _ => hEarg)
            (fun h1 => GMode.noConfusion h1)
            (fun hd0 => by have := h5' hd0; omega)
            hMOarg
        · split at h
          · rename_i hdp
            refine ih _ _ _ _ _ ?_ h c hc hspec
            have hMOarg : 0 < depth → depth + GMode.minOff .closed ≤ pre.length + 1 := by
              intro _
              have := hdd' hdp
              show depth + 3 ≤ pre.length + 1
              omega
            exact GInv_step_tok .closed depth pre ext 's' (Or.inr (Or.inr (Or.inl rfl)))
              (fun _ => hdp) (fun h1 => GMode.noConfusion h1) (fun h1 => GMode.noConfusion h1)
              (fun hd0 => absurd hdp (by omega)) hMOarg
          · exact absurd h (List.not_mem_nil s)
    | cubed =>
      rw [genGo] at hs
      split at hs
      · exact absurd hs (List.not_mem_nil s)
      · have hG2 : ¬cleanPre pre →
            (depth = 0 → 5 ≤ pre.length) ∧ (0 < depth → depth + 2 ≤ pre.length) := by
          intro hn
          refine ⟨(hG hn).1, fun hdp => ?_⟩
          have h3 : depth + 3 ≤ pre.length := (hG hn).2 hdp
          omega
        have h5' : depth = 0 → 5 ≤ pre.length := by
          intro hd0
          rcases hD (Or.inr rfl) with hdp | hn
          · omega
          · exact (hG2 hn).1 hd0
        have hdd' : 0 < depth → depth + 2 ≤ pre.length :=
          fun hdp => (hG2 (hA hdp)).2 hdp
        simp only [List.mem_append] at hs
        rcases hs with (h | h) | h
        · split at h
          · obtain ⟨hd0, -, hslen⟩ := try_gen_eq_special _ _ _ _ h c hc hspec
            have := h5' hd0
            have hlen1 : (pre ++ ['c']).length = pre.length + 1 := by simp
            omega
          · exact absurd h (List.not_mem_nil s)
        · refine ih _ _ _ _ _ ?_ h c hc hspec
          have hEarg : depth + 1 ≤ pre.length + 1 := by
            by_cases hdp : 0 < depth
            · have := hdd' hdp
              omega
            · omega
          have hMOarg : 0 < depth → depth + GMode.minOff .oper ≤ pre.length + 1 := by
            intro hdp
            have := hdd' hdp
            show depth + 3 ≤ pre.length + 1
            omega
          exact GInv_step_tok .oper depth pre true 'c' (Or.inr (Or.inr (Or.inr rfl)))
            (fun h1 => GMode.noConfusion h1) (fun _ => hEarg)
            (fun h1 => GMode.noConfusion h1)
            (fun hd0 => by have := h5' hd0; omega)
            hMOarg
        · split at h
          · rename_i hdp
            refine ih _ _ _ _ _ ?_ h c hc hspec
            have hMOarg : 0 < depth → depth + GMode.minOff .closed ≤ pre.length + 1 := by
              intro _
              have := hdd' hdp
              show depth + 3 ≤ pre.length + 1
              omega
            exact GInv_step_tok .closed depth pre ext 'c' (Or.inr (Or.inr (Or.inr rfl)))
              (fun _ => hdp) (fun h1 => GMode.noConfusion h1) (fun h1 => GMode.noConfusion h1)
              (fun hd0 => absurd hdp (by omega)) hMOarg
          · exact absurd h (List.not_mem_nil s)
    | opened =>
      rw [genGo] at hs
      split at hs
      · exact absurd hs (List.not_mem_nil s)
      · have hFop : depth + 2 ≤ pre.length := hF rfl
        rcases List.mem_append.mp hs with h | h
        · refine ih _ _ _ _ _ ?_ h c hc hspec
          exact GInv_step_tok .nzDigit (depth + 1) pre true '(' (Or.inl rfl)
            (fun h1 => GMode.noConfusion h1) (fun h1 => GMode.noConfusion h1)
            (fun h1 => GMode.noConfusion h1)
            (fun hd0 => by omega)
            (fun _ => by show depth + 1 + 2 ≤ pre.length + 1; omega)
        · refine ih _ _ _ _ _ ?_ h c hc hspec
          exact GInv_step_tok .opened (depth + 1) pre ext '(' (Or.inl rfl)
            (fun h1 => GMode.noConfusion h1) (fun h1 => GMode.noConfusion h1)
            (fun _ => by omega)
            (fun hd0 => by omega)
            (fun _ => by show depth + 1 + 2 ≤ pre.length + 1; omega)
    | closed =>
      rw [genGo] at hs
      split at hs
      · exact absurd hs (List.not_mem_nil s)
      · have hdp : 0 < depth := hC rfl
        have hnp : ¬cleanPre pre := hA hdp
        have hd3 : depth + 3 ≤ pre.length := (hG hnp).2 hdp
        simp only [List.mem_append] at hs
        rcases hs with (((h | h) | h) | h) | h
        · obtain ⟨hd0, -, hslen⟩ := try_gen_eq_special _ _ _ _ h c hc hspec
          have hlen1 : (pre ++ [')']).length = pre.length + 1 := by simp
          omega
        · refine ih _ _ _ _ _ ?_ h c hc hspec
          exact GInv_step_tok .oper (depth - 1) pre true ')' (Or.inr (Or.inl rfl))
            (fun h1 => GMode.noConfusion h1)
            (fun _ => by omega)
            (fun h1 => GMode.noConfusion h1)
            (fun hd0 => by omega)
            (fun _ => by show depth - 1 + 3 ≤ pre.length + 1; omega)
        · refine ih _ _ _ _ _ ?_ h c hc hspec
          exact GInv_step_tok .squared (depth - 1) pre ext ')' (Or.inr (Or.inl rfl))
            (fun h1 => GMode.noConfusion h1) (fun h1 => GMode.noConfusion h1)
            (fun h1 => GMode.noConfusion h1)
            (fun hd0 => by omega)
            (fun _ => by show depth - 1 + 3 ≤ pre.length + 1; omega)
        · refine ih _ _ _ _ _ ?_ h c hc hspec
          exact GInv_step_tok .cubed (depth - 1) pre ext ')' (Or.inr (Or.inl rfl))
            (fun h1 => GMode.noConfusion h1) (fun h1 => GMode.noConfusion h1)
            (fun h1 => GMode.noConfusion h1)
            (fun hd0 => by omega)
            (fun _ => by show depth - 1 + 3 ≤ pre.length + 1; omega)
        · split at h
          · rename_i hdp2
            refine ih _ _ _ _ _ ?_ h c hc hspec
            exact GInv_step_tok .closed (depth - 1) pre ext ')' (Or.inr (Or.inl rfl))
              (fun _ => hdp2) (fun h1 => GMode.noConfusion h1) (fun h1 => GMode.noConfusion h1)
              (fun hd0 => by omega)
              (fun _ => by show depth - 1 + 3 ≤ pre.length + 1; omega)
          · exact absurd h (List.not_mem_nil s)

/-- From the non-extended top level the invariant holds vacuously, so any
emitted string carrying a parenthesis or exponent token has at least 7
characters. -/
theorem gen_special_length (slots : Nat) (s : List Char) (hs : s ∈ gen slots false)
    (c : Char) (hc : c ∈ s) (hspec : specialTok c) : 7 ≤ s.length := by
  rw [gen] at hs
  rcases List.mem_append.mp hs with h | h
  · refine genGo_special slots slots .nzDigit 0 [] false s ?_ h c hc hspec
    exact ⟨fun hdp => absurd hdp (by omega),
      fun hx => absurd hx (by decide),
      fun h1 => GMode.noConfusion h1,
      fun h1 => h1.elim (fun h2 => GMode.noConfusion h2) (fun h2 => GMode.noConfusion h2),
      fun h1 => GMode.noConfusion h1,
      fun h1 => GMode.noConfusion h1,
      fun hn => absurd cleanPre_nil hn⟩
  · split at h
    · rename_i hext
      exact absurd hext (by decide)
    · exact absurd h (List.not_mem_nil s)

/-- C5 (amended): with `extended = false` the emitted strings are free of
parenthesis and exponent tokens only for small slot counts — for every
slot count at most 6 (too short to fit a parenthesized group, which
needs at least `d+(d)` plus `=` and a digit, i.e. 7 slots) no emitted
string contains `(`, `)` or an exponent token (`s`/`c` in the
generator's ASCII encoding); from 7 slots on they can appear after an
operator, as the counterexample shows. -/
theorem gen_non_extended_small_no_paren (slots : Nat) (hslots : slots ≤ 6)
    (s : List Char) (hs : s ∈ gen slots false) (c : Char) (hc : c ∈ s) :
    c ≠ '(' ∧ c ≠ ')' ∧ c ≠ 's' ∧ c ≠ 'c' := by
  have hs2 := hs
  rw [gen] at hs2
  have hval : ValidEq slots s := by
    rcases List.mem_append.mp hs2 with h | h
    · exact genGo_sound slots slots .nzDigit 0 [] false s (by simp) h
    · split at h
      · rename_i hext
        exact absurd hext (by decide)
      · exact absurd h (List.not_mem_nil s)
  have hlen : s.length = slots := hval.1
  have h7 : specialTok c → 7 ≤ s.length := gen_special_length slots s hs c hc
  refine ⟨fun h => ?_, fun h => ?_, fun h => ?_, fun h => ?_⟩
  · subst h
    have := h7 (Or.inl rfl)
    omega
  · subst h
    have := h7 (Or.inr (Or.inl rfl))
    omega
  · subst h
    have := h7 (Or.inr (Or.inr (Or.inl rfl)))
    omega
  · subst h
    have := h7 (Or.inr (Or.inr (Or.inr rfl)))
    omega

/-- Witness for the amended C5 at slots = 5. -/
theorem gen_non_extended_small_no_paren_witness :
    5 ≤ 6 ∧ ("1+2=3".data ∈ gen 5 false) ∧ '1' ∈ "1+2=3".data ∧
      ('1' ≠ '(' ∧ '1' ≠ ')' ∧ '1' ≠ 's' ∧ '1' ≠ 'c') :=
  have h : "1+2=3".data ∈ gen 5 false := by decide
  ⟨by decide, h, by decide,
    gen_non_extended_small_no_paren 5 (by decide) "1+2=3".data h '1' (by decide)⟩

set_option maxRecDepth 100000 in
/-- The 5-slot non-extended count asserted by bin/gen-micro.rs (supporting
evidence for C3; the 18,115 and 2,177,736 counts of bin/gen-classic.rs and
bin/gen-maxi.rs are far beyond in-kernel computation). -/
theorem gen_five_count : (gen 5 false).length = 127 := by decide

end Nerdle
